import Mathlib

/-
  Verification of the NPC EA Household Upload reconciliation engine
  (src/app/api/main.py) against its natural-language specification.

  The embedding below translates the Python source into Lean:
  - Python strings are Lean `String` / `List Char`; raw bytes are `List Nat`
    (each element < 256).
  - Calendar dates are modelled as `Nat` day ordinals (Python `date` is a
    totally ordered value; only its order is used by the source).
  - The PostgreSQL tables are lists of records inside `DBState`; SQL
    SELECT / INSERT / UPDATE statements become `List.find?` / append / map.
  - The `with engine.begin()` transaction is modelled by `runTxn`: the body
    threads the database state and may abort (an injected storage fault),
    in which case the pre-transaction state is restored (rollback) and the
    propagated exception is reported as `Response.storageError`.
  - Wall-clock timestamps (`NOW()`) are an explicit `now : Nat` parameter.
-/

namespace NpcUpload

/-! ## Python string helpers (str.strip / str.rstrip, ASCII whitespace) -/

/-- Python whitespace predicate (the ASCII fragment relevant here:
space, tab, LF, CR, vertical tab, form feed). -/
def isPySpace (c : Char) : Bool :=
  c = ' ' || c = '\t' || c = '\n' || c = '\r' || c = '\x0b' || c = '\x0c'

/-- Python `str.rstrip()` on a character list. -/
def rstripChars (l : List Char) : List Char :=
  (l.reverse.dropWhile isPySpace).reverse

/-- Python `str.lstrip()` on a character list. -/
def lstripChars (l : List Char) : List Char :=
  l.dropWhile isPySpace

/-- Python `str.strip()` on a character list. -/
def stripChars (l : List Char) : List Char :=
  lstripChars (rstripChars l)

/-- Python `str.strip()` on a `String`. -/
def pyStrip (s : String) : String :=
  ⟨stripChars s.data⟩

/-! ## Python `int(...)` on an already-stripped string -/

def natOfDigitsGo : List Char → Nat → Option Nat
  | [], acc => some acc
  | c :: rest, acc =>
      if c.isDigit then natOfDigitsGo rest (acc * 10 + (c.toNat - 48)) else none

/-- Value of a non-empty all-digit character list. -/
def natOfDigits (l : List Char) : Option Nat :=
  match l with
  | [] => none
  | _ => natOfDigitsGo l 0

/-- Model of Python `int(s)` for a whitespace-stripped string: an optional
sign followed by at least one decimal digit. -/
def pyInt (s : String) : Option Int :=
  match s.data with
  | '+' :: rest => (natOfDigits rest).map (fun n => (n : Int))
  | '-' :: rest => (natOfDigits rest).map (fun n => -(n : Int))
  | l => (natOfDigits l).map (fun n => (n : Int))

/-! ## Parser / validator (`parse_csv_file`, main.py lines 153-200)

The `csv.DictReader` front end is modelled by giving the data rows directly
as the pair of values of the two semantic columns `NAT_EA_SN` and
`HOUSEHOLD_COUNT` (the `or ""` in the source turns a missing cell into the
empty string).  The loop `for i, r in enumerate(reader, start=2)` with its
validation, duplicate-skipping and accumulation is translated verbatim in
`parseGo`. -/

inductive ParseResult where
  | ok (rows : List (String × Int)) (dupInFile : Nat)
  | err (message : String) (dupInFile : Nat)
deriving DecidableEq, Repr

def rowMsgEmpty (i : Nat) : String :=
  "Row " ++ toString i ++ ": NAT_EA_SN is empty."

def rowMsgInt (i : Nat) : String :=
  "Row " ++ toString i ++ ": HOUSEHOLD_COUNT must be a whole number."

def rowMsgNeg (i : Nat) : String :=
  "Row " ++ toString i ++ ": HOUSEHOLD_COUNT cannot be negative."

def msgNoValid : String :=
  "No valid data rows found (after removing duplicates)."

def parseGo : List (String × String) → Nat → List String → List (String × Int) → Nat → ParseResult
  | [], _, _, acc, dup =>
      if acc = [] then .err msgNoValid dup else .ok acc dup
  | (natRaw, hhRaw) :: rest, i, seen, acc, dup =>
      let nat := pyStrip natRaw
      let hh_raw := pyStrip hhRaw
      if nat = "" then .err (rowMsgEmpty i) dup
      else if nat ∈ seen then parseGo rest (i + 1) seen acc (dup + 1)
      else
        match pyInt hh_raw with
        | none => .err (rowMsgInt i) dup
        | some hh =>
            if hh < 0 then .err (rowMsgNeg i) dup
            else parseGo rest (i + 1) (nat :: seen) (acc ++ [(nat, hh)]) dup

/-- `parse_csv_file` of main.py, starting at the data-row loop (the header
checks of lines 161-168 concern the DictReader front end).  Data rows are
numbered from 2 (`enumerate(reader, start=2)`): the header is file row 1. -/
def parse_csv_file (dataRows : List (String × String)) : ParseResult :=
  parseGo dataRows 2 [] [] 0

/-! ## Data model (the three tables of init_db) -/

/-- One row of the `ea_frame` master table. -/
structure MasterRecord where
  nat_ea_sn : String
  household_count : Int
  last_updated_by : String
  last_updated_project : String
  last_updated_date : Option Nat
  last_updated_at : Nat
deriving DecidableEq, Repr

/-- One row of the `upload_batches` ledger table. -/
structure UploadBatch where
  id : Nat
  client_name : String
  client_project : String
  collection_date : Nat
  file_hash : String
  total_rows : Nat
  valid_rows : Nat
  invalid_rows : Nat
  duplicate_in_file : Nat
  master_inserted : Nat
  master_updated : Nat
  master_skipped : Nat
  created_at : Nat
deriving DecidableEq, Repr

/-- One row of the optional `ea_uploads` per-row audit table. -/
structure UploadItem where
  batch_id : Nat
  nat_ea_sn : String
  household_count : Int
  client_name : String
  client_project : String
  collection_date : Nat
  status : String
  note : String
deriving DecidableEq, Repr

/-- The visible database state. -/
structure DBState where
  ea_frame : List MasterRecord
  upload_batches : List UploadBatch
  ea_uploads : List UploadItem
  next_batch_id : Nat
deriving DecidableEq, Repr

/-- The counters of the success message (main.py lines 381-391). -/
structure Summary where
  batch_id : Nat
  total_rows : Nat
  valid_rows : Nat
  duplicate_in_file : Nat
  master_inserted : Nat
  master_updated : Nat
  master_skipped : Nat
deriving DecidableEq, Repr

/-- The structured result of one POST /upload request. `storageError`
models an exception escaping the `with engine.begin()` block after the
transaction rolled back. -/
inductive Response where
  | rejected (message : String)
  | alreadyUploaded (batchId : Nat) (createdAt : Nat)
  | accepted (summary : Summary) (notes : List String)
  | storageError
deriving DecidableEq, Repr

/-! ## Transactional applier (`upload`, main.py lines 221-396)

Storage faults are injected by `failAt : Option Nat`: the n-th write
statement executed inside the transaction raises when `failAt = some n`.
`audit` is the `STORE_ROW_AUDIT` configuration flag. -/

/-- Accumulator threading the in-transaction database state, the number of
executed write statements, the three Python counter locals and the
`notes_preview` list. -/
structure Acc where
  db : DBState
  ops : Nat
  mi : Nat
  mu : Nat
  ms : Nat
  notes : List String
deriving DecidableEq, Repr

/-- Execute one SQL write statement inside the transaction; raises if the
injected fault index is reached. -/
def doWrite (failAt : Option Nat) (f : DBState → DBState) (a : Acc) : Except Unit Acc :=
  if failAt = some a.ops then .error () else .ok { a with db := f a.db, ops := a.ops + 1 }

/-- SELECT ... FROM ea_frame WHERE NAT_EA_SN=:nat (main.py lines 313-316). -/
def findMaster (db : DBState) (nat : String) : Option MasterRecord :=
  db.ea_frame.find? (fun r => r.nat_ea_sn = nat)

/-- INSERT INTO ea_frame (main.py lines 322-327). -/
def insertMaster (nat : String) (hh : Int) (cn cp : String) (cdate now : Nat)
    (db : DBState) : DBState :=
  { db with ea_frame := db.ea_frame ++ [⟨nat, hh, cn, cp, some cdate, now⟩] }

/-- UPDATE ea_frame SET ... WHERE NAT_EA_SN=:nat (main.py lines 339-347). -/
def updateMaster (nat : String) (hh : Int) (cn cp : String) (cdate now : Nat)
    (db : DBState) : DBState :=
  { db with ea_frame := db.ea_frame.map (fun r =>
      if r.nat_ea_sn = nat then
        { r with household_count := hh, last_updated_by := cn,
                 last_updated_project := cp, last_updated_date := some cdate,
                 last_updated_at := now }
      else r) }

/-- INSERT INTO ea_uploads (main.py lines 358-367). -/
def insertAudit (bid : Nat) (nat : String) (hh : Int) (cn cp : String) (cdate : Nat)
    (status note : String) (db : DBState) : DBState :=
  { db with ea_uploads := db.ea_uploads ++ [⟨bid, nat, hh, cn, cp, cdate, status, note⟩] }

/-- Rendering of a last_updated_date inside a note (Python str of a
date or of None). -/
def optDateStr : Option Nat → String
  | none => "None"
  | some d => toString d

def noteInserted : String := "Inserted new EA into master."

def noteUpdated (last_by last_proj : String) (last_date : Option Nat) : String :=
  "Master updated (newer date). Previous: " ++ last_by ++ " (" ++ last_proj ++ ") on "
    ++ optDateStr last_date ++ "."

def noteSkipped (last_by last_proj : String) (last_date : Option Nat) : String :=
  "Not applied to master (older/equal date). Current master: " ++ last_by ++ " ("
    ++ last_proj ++ ") on " ++ optDateStr last_date ++ "."

/-- `if note and len(notes_preview) < 15: notes_preview.append(...)`
(main.py lines 369-370). -/
def pushNote (nat note : String) (a : Acc) : Acc :=
  if note ≠ "" ∧ a.notes.length < 15 then
    { a with notes := a.notes ++ [nat ++ ": " ++ note] }
  else a

/-- The tail of the per-row loop body: optional audit insert, then the
notes-preview bookkeeping (main.py lines 356-370). -/
def auditThenNote (failAt : Option Nat) (audit : Bool) (bid : Nat) (nat : String)
    (hh : Int) (cn cp : String) (cdate : Nat) (status note : String) (a : Acc) :
    Except Unit Acc :=
  (if audit then doWrite failAt (insertAudit bid nat hh cn cp cdate status note) a
   else .ok a).map (pushNote nat note)

/-- One iteration of `for nat, hh in rows` (main.py lines 312-370): the
conflict resolver plus audit/notes bookkeeping. -/
def processRow (failAt : Option Nat) (audit : Bool) (cn cp : String)
    (cdate now bid : Nat) (a : Acc) (row : String × Int) : Except Unit Acc :=
  match findMaster a.db row.1 with
  | none =>
      (doWrite failAt (insertMaster row.1 row.2 cn cp cdate now) a).bind
        (fun a1 => auditThenNote failAt audit bid row.1 row.2 cn cp cdate
          "master_inserted" noteInserted { a1 with mi := a1.mi + 1 })
  | some m =>
      let can_update := match m.last_updated_date with
        | none => true
        | some d => decide (d < cdate)
      if can_update then
        (doWrite failAt (updateMaster row.1 row.2 cn cp cdate now) a).bind
          (fun a1 => auditThenNote failAt audit bid row.1 row.2 cn cp cdate
            "master_updated"
            (noteUpdated m.last_updated_by m.last_updated_project m.last_updated_date)
            { a1 with mu := a1.mu + 1 })
      else
        auditThenNote failAt audit bid row.1 row.2 cn cp cdate
          "master_skipped"
          (noteSkipped m.last_updated_by m.last_updated_project m.last_updated_date)
          { a with ms := a.ms + 1 }

/-- The whole per-row loop. -/
def processRows (failAt : Option Nat) (audit : Bool) (cn cp : String)
    (cdate now bid : Nat) : List (String × Int) → Acc → Except Unit Acc
  | [], a => .ok a
  | row :: rest, a =>
      (processRow failAt audit cn cp cdate now bid a row).bind
        (processRows failAt audit cn cp cdate now bid rest)

/-- WHERE clause of the batch-dedupe SELECT (main.py lines 273-278). -/
def batchMatches (cn cp : String) (cdate : Nat) (fh : String) (b : UploadBatch) : Bool :=
  b.client_name = cn && b.client_project = cp && b.collection_date = cdate
    && b.file_hash = fh

/-- INSERT INTO upload_batches ... RETURNING id (main.py lines 294-308);
`id BIGSERIAL` is modelled by `next_batch_id`. -/
def insertBatch (cn cp : String) (cdate : Nat) (fh : String)
    (total valid dup now : Nat) (db : DBState) : DBState :=
  { db with
    upload_batches := db.upload_batches
      ++ [⟨db.next_batch_id, cn, cp, cdate, fh, total, valid, 0, dup, 0, 0, 0, now⟩],
    next_batch_id := db.next_batch_id + 1 }

/-- UPDATE upload_batches SET ... WHERE id=:bid (main.py lines 373-379). -/
def updateBatchCounters (bid mi mu ms : Nat) (db : DBState) : DBState :=
  { db with upload_batches := db.upload_batches.map (fun b =>
      if b.id = bid then
        { b with master_inserted := mi, master_updated := mu, master_skipped := ms }
      else b) }

/-- Body of the `with engine.begin() as conn` block (main.py lines 271-379). -/
def uploadTxn (failAt : Option Nat) (audit : Bool) (cn cp : String) (cdate : Nat)
    (fh : String) (rows : List (String × Int)) (dup now : Nat) (st : DBState) :
    Except Unit (DBState × Response) :=
  match st.upload_batches.find? (batchMatches cn cp cdate fh) with
  | some b => .ok (st, .alreadyUploaded b.id b.created_at)
  | none =>
      let bid := st.next_batch_id
      let total := rows.length + dup
      let valid := rows.length
      (doWrite failAt (insertBatch cn cp cdate fh total valid dup now)
          ⟨st, 0, 0, 0, 0, []⟩).bind
        (fun a0 => (processRows failAt audit cn cp cdate now bid rows a0).bind
          (fun a1 => (doWrite failAt (updateBatchCounters bid a1.mi a1.mu a1.ms) a1).map
            (fun a2 =>
              (a2.db, .accepted ⟨bid, total, valid, dup, a1.mi, a1.mu, a1.ms⟩ a2.notes))))

/-- Transaction semantics of `with engine.begin()`: on an uncaught
exception the transaction rolls back (the pre-state is restored) and the
exception propagates as a storage-error response. -/
def runTxn (st : DBState) (r : Except Unit (DBState × Response)) : DBState × Response :=
  match r with
  | .ok p => p
  | .error _ => (st, .storageError)

/-- The POST /upload handler (main.py lines 221-396).  `cdate` is the
already-parsed ISO collection date; `fh` is the file hash computed from the
submitted bytes by `sha256_hex ∘ normalize_csv_bytes`; `dataRows` are the
DictReader records of the submitted file. -/
def upload (failAt : Option Nat) (audit : Bool) (client_name client_project : String)
    (cdate : Nat) (fh : String) (dataRows : List (String × String)) (now : Nat)
    (st : DBState) : DBState × Response :=
  let cn := pyStrip client_name
  let cp := pyStrip client_project
  if cn = "" || cp = "" then
    (st, .rejected "Please provide Client Name and Client Project.")
  else
    match parse_csv_file dataRows with
    | .err msg _ => (st, .rejected msg)
    | .ok rows dup => runTxn st (uploadTxn failAt audit cn cp cdate fh rows dup now st)

/-! ## Content fingerprinter (`normalize_csv_bytes` + `sha256_hex`,
main.py lines 135-150)

The submitted file is modelled as its decoded character sequence; the
`utf-8-sig` decode step that drops a leading byte-order mark becomes
`dropBOM` on a leading U+FEFF.  SHA-256 is implemented over byte lists. -/

def dropBOM : List Char → List Char
  | [] => []
  | c :: t => if c = '\uFEFF' then t else c :: t

/-- Python `txt.replace("\r\n", "\n")` (left-to-right, non-overlapping). -/
def replaceCRLF : List Char → List Char
  | [] => []
  | [c] => [c]
  | c1 :: c2 :: rest =>
      if c1 = '\r' ∧ c2 = '\n' then '\n' :: replaceCRLF rest
      else c1 :: replaceCRLF (c2 :: rest)

/-- Python `txt.replace("\r", "\n")`. -/
def crToLF (l : List Char) : List Char :=
  l.map (fun c => if c = '\r' then '\n' else c)

/-- Python `txt.split("\n")`: always returns at least one segment. -/
def splitNL : List Char → List (List Char)
  | [] => [[]]
  | c :: rest =>
      if c = '\n' then [] :: splitNL rest
      else
        match splitNL rest with
        | l :: ls => (c :: l) :: ls
        | [] => [[c]]

/-- Python `sep.join(lines)`. -/
def joinWith (term : List Char) : List (List Char) → List Char
  | [] => []
  | [l] => l
  | l :: ls => l ++ term ++ joinWith term ls

/-- Python `"\n".join(lines)`. -/
def joinNL (ls : List (List Char)) : List Char :=
  joinWith ['\n'] ls

/-- `normalize_csv_bytes` of main.py on the decoded text: drop the BOM,
normalize line endings to LF, right-strip every line, strip the whole text
and append exactly one trailing LF. -/
def normalize_csv_bytes (t : List Char) : List Char :=
  let t1 := crToLF (replaceCRLF (dropBOM t))
  stripChars (joinNL ((splitNL t1).map rstripChars)) ++ ['\n']

/-! ### SHA-256 (hashlib.sha256, words as `Nat` mod 2^32) -/

def M32 : Nat := 4294967296

def add32 (a b : Nat) : Nat := (a + b) % M32

def rotr32 (n a : Nat) : Nat :=
  ((a >>> n) ||| ((a <<< (32 - n)) % M32)) % M32

def shaCh (e f g : Nat) : Nat :=
  ((e &&& f) ^^^ ((e ^^^ (M32 - 1)) &&& g)) % M32

def shaMaj (a b c : Nat) : Nat :=
  ((a &&& b) ^^^ (a &&& c) ^^^ (b &&& c)) % M32

def bigSigma0 (a : Nat) : Nat := (rotr32 2 a) ^^^ (rotr32 13 a) ^^^ (rotr32 22 a)

def bigSigma1 (a : Nat) : Nat := (rotr32 6 a) ^^^ (rotr32 11 a) ^^^ (rotr32 25 a)

def smallSigma0 (a : Nat) : Nat := ((rotr32 7 a) ^^^ (rotr32 18 a) ^^^ (a >>> 3)) % M32

def smallSigma1 (a : Nat) : Nat := ((rotr32 17 a) ^^^ (rotr32 19 a) ^^^ (a >>> 10)) % M32

/-- Big-endian byte rendering of a value at a given width. -/
def beBytes : Nat → Nat → List Nat
  | 0, _ => []
  | w + 1, v => beBytes w (v / 256) ++ [v % 256]

/-- SHA-256 padding: 0x80, zeros to 56 mod 64, 8-byte bit length. -/
def padMsg (m : List Nat) : List Nat :=
  let L := m.length
  let k := (64 - (L + 9) % 64) % 64
  m ++ [128] ++ List.replicate k 0 ++ beBytes 8 (L * 8)

/-- Big-endian 32-bit words of a byte list. -/
def wordsOf : List Nat → List Nat
  | b0 :: b1 :: b2 :: b3 :: rest =>
      (((b0 * 256 + b1) * 256 + b2) * 256 + b3) :: wordsOf rest
  | _ => []

/-- Split a word list into 16-word blocks. -/
def chunks16 : List Nat → List (List Nat)
  | w0 :: w1 :: w2 :: w3 :: w4 :: w5 :: w6 :: w7 :: w8 :: w9 :: w10 :: w11 :: w12
      :: w13 :: w14 :: w15 :: rest =>
      [w0, w1, w2, w3, w4, w5, w6, w7, w8, w9, w10, w11, w12, w13, w14, w15]
        :: chunks16 rest
  | _ => []

/-- Message-schedule extension: append `n` further words. -/
def extendW : Nat → List Nat → List Nat
  | 0, w => w
  | n + 1, w =>
      let i := w.length
      extendW n (w ++ [add32 (add32 (smallSigma1 (w.getD (i - 2) 0)) (w.getD (i - 7) 0))
        (add32 (smallSigma0 (w.getD (i - 15) 0)) (w.getD (i - 16) 0))])

structure Hash8 where
  a : Nat
  b : Nat
  c : Nat
  d : Nat
  e : Nat
  f : Nat
  g : Nat
  h : Nat
deriving DecidableEq, Repr

def shaK : List Nat :=
  [1116352408, 1899447441, 3049323471, 3921009573, 961987163,
   1508970993, 2453635748, 2870763221, 3624381080, 310598401,
   607225278, 1426881987, 1925078388, 2162078206, 2614888103,
   3248222580, 3835390401, 4022224774, 264347078, 604807628,
   770255983, 1249150122, 1555081692, 1996064986, 2554220882,
   2821834349, 2952996808, 3210313671, 3336571891, 3584528711,
   113926993, 338241895, 666307205, 773529912, 1294757372,
   1396182291, 1695183700, 1986661051, 2177026350, 2456956037,
   2730485921, 2820302411, 3259730800, 3345764771, 3516065817,
   3600352804, 4094571909, 275423344, 430227734, 506948616,
   659060556, 883997877, 958139571, 1322822218, 1537002063,
   1747873779, 1955562222, 2024104815, 2227730452, 2361852424,
   2428436474, 2756734187, 3204031479, 3329325298]

def shaRound (s : Hash8) (kw : Nat × Nat) : Hash8 :=
  let t1 := add32 (add32 (add32 s.h (bigSigma1 s.e)) (add32 (shaCh s.e s.f s.g) kw.1)) kw.2
  let t2 := add32 (bigSigma0 s.a) (shaMaj s.a s.b s.c)
  ⟨add32 t1 t2, s.a, s.b, s.c, add32 s.d t1, s.e, s.f, s.g⟩

def compress (s : Hash8) (chunk : List Nat) : Hash8 :=
  let w := extendW 48 chunk
  let t := (shaK.zip w).foldl shaRound s
  ⟨add32 s.a t.a, add32 s.b t.b, add32 s.c t.c, add32 s.d t.d,
   add32 s.e t.e, add32 s.f t.f, add32 s.g t.g, add32 s.h t.h⟩

def shaH0 : Hash8 :=
  ⟨1779033703, 3144134277, 1013904242, 2773480762,
   1359893119, 2600822924, 528734635, 1541459225⟩

/-- The 32-byte SHA-256 digest of a byte list. -/
def sha256_bytes (m : List Nat) : List Nat :=
  let s := (chunks16 (wordsOf (padMsg m))).foldl compress shaH0
  beBytes 4 s.a ++ beBytes 4 s.b ++ beBytes 4 s.c ++ beBytes 4 s.d
    ++ beBytes 4 s.e ++ beBytes 4 s.f ++ beBytes 4 s.g ++ beBytes 4 s.h

def hexDigit (n : Nat) : Char :=
  if n < 10 then Char.ofNat (48 + n) else Char.ofNat (87 + n)

def hexByte (b : Nat) : List Char :=
  [hexDigit (b / 16 % 16), hexDigit (b % 16)]

/-- `sha256_hex` of main.py: the fixed-width hexadecimal digest. -/
def sha256_hex (m : List Nat) : String :=
  ⟨((sha256_bytes m).map hexByte).flatten⟩

/-- UTF-8 encoding of one character. -/
def utf8Char (c : Char) : List Nat :=
  let n := c.toNat
  if n < 0x80 then [n]
  else if n < 0x800 then [0xC0 + n / 64, 0x80 + n % 64]
  else if n < 0x10000 then [0xE0 + n / 4096, 0x80 + (n / 64) % 64, 0x80 + n % 64]
  else [0xF0 + n / 262144, 0x80 + (n / 4096) % 64, 0x80 + (n / 64) % 64, 0x80 + n % 64]

def utf8Encode (l : List Char) : List Nat :=
  (l.map utf8Char).flatten

/-- The content fingerprint of a submitted file (main.py lines 255-256):
SHA-256 hex digest of the normalized content. -/
def fingerprint (t : List Char) : String :=
  sha256_hex (utf8Encode (normalize_csv_bytes t))

/-! ## Basic lemmas about the transactional building blocks -/

theorem doWrite_none (f : DBState → DBState) (a : Acc) :
    doWrite none f a = .ok { a with db := f a.db, ops := a.ops + 1 } := rfl

@[simp] theorem pushNote_db (nat note : String) (a : Acc) :
    (pushNote nat note a).db = a.db := by
  unfold pushNote; split <;> rfl

@[simp] theorem pushNote_mi (nat note : String) (a : Acc) :
    (pushNote nat note a).mi = a.mi := by
  unfold pushNote; split <;> rfl

@[simp] theorem pushNote_mu (nat note : String) (a : Acc) :
    (pushNote nat note a).mu = a.mu := by
  unfold pushNote; split <;> rfl

@[simp] theorem pushNote_ms (nat note : String) (a : Acc) :
    (pushNote nat note a).ms = a.ms := by
  unfold pushNote; split <;> rfl

@[simp] theorem pushNote_ops (nat note : String) (a : Acc) :
    (pushNote nat note a).ops = a.ops := by
  unfold pushNote; split <;> rfl

/-- With no injected fault, the audit/notes tail of the loop body always
succeeds, never touches the master or batch tables, and appends the audit
item exactly when auditing is on. -/
theorem auditThenNote_none (audit : Bool) (bid : Nat) (nat : String) (hh : Int)
    (cn cp : String) (cdate : Nat) (status note : String) (a : Acc) :
    ∃ a', auditThenNote none audit bid nat hh cn cp cdate status note a = .ok a' ∧
      a'.db.ea_frame = a.db.ea_frame ∧
      a'.db.upload_batches = a.db.upload_batches ∧
      a'.db.next_batch_id = a.db.next_batch_id ∧
      a'.mi = a.mi ∧ a'.mu = a.mu ∧ a'.ms = a.ms ∧
      (audit = true → a'.db.ea_uploads =
        a.db.ea_uploads ++ [⟨bid, nat, hh, cn, cp, cdate, status, note⟩]) ∧
      (audit = false → a'.db.ea_uploads = a.db.ea_uploads) := by
  cases audit with
  | false =>
      refine ⟨pushNote nat note a, rfl, ?_, ?_, ?_, ?_, ?_, ?_, ?_, ?_⟩
      · simp
      · simp
      · simp
      · simp
      · simp
      · simp
      · intro h; cases h
      · intro _; simp
  | true =>
      refine ⟨pushNote nat note
        { a with db := insertAudit bid nat hh cn cp cdate status note a.db,
                 ops := a.ops + 1 }, rfl, ?_, ?_, ?_, ?_, ?_, ?_, ?_, ?_⟩
      · simp [insertAudit]
      · simp [insertAudit]
      · simp [insertAudit]
      · simp
      · simp
      · simp
      · intro _; simp [insertAudit]
      · intro h; cases h

/-- Claim C1.  Per-row conflict resolution, main.py lines 312-354: an
absent master record is inserted verbatim with outcome `master_inserted`
regardless of date; an existing record has all its fields overwritten with
outcome `master_updated` exactly when its stored date is unset or the
submitted date is strictly later; otherwise the master store is left
completely unchanged and the outcome is `master_skipped`. -/
theorem conflict_resolution_per_row (audit : Bool) (cn cp : String)
    (cdate now bid : Nat) (a : Acc) (nat : String) (hh : Int) :
    (findMaster a.db nat = none →
      ∃ a', processRow none audit cn cp cdate now bid a (nat, hh) = .ok a' ∧
        a'.db.ea_frame = a.db.ea_frame ++ [⟨nat, hh, cn, cp, some cdate, now⟩] ∧
        a'.mi = a.mi + 1 ∧ a'.mu = a.mu ∧ a'.ms = a.ms ∧
        (audit = true → a'.db.ea_uploads = a.db.ea_uploads
          ++ [⟨bid, nat, hh, cn, cp, cdate, "master_inserted", noteInserted⟩])) ∧
    (∀ m, findMaster a.db nat = some m →
      (m.last_updated_date = none ∨ ∃ d, m.last_updated_date = some d ∧ d < cdate) →
      ∃ a', processRow none audit cn cp cdate now bid a (nat, hh) = .ok a' ∧
        a'.db.ea_frame = a.db.ea_frame.map (fun r =>
          if r.nat_ea_sn = nat then
            { r with household_count := hh, last_updated_by := cn,
                     last_updated_project := cp, last_updated_date := some cdate,
                     last_updated_at := now }
          else r) ∧
        a'.mi = a.mi ∧ a'.mu = a.mu + 1 ∧ a'.ms = a.ms ∧
        (audit = true → a'.db.ea_uploads = a.db.ea_uploads
          ++ [⟨bid, nat, hh, cn, cp, cdate, "master_updated",
               noteUpdated m.last_updated_by m.last_updated_project
                 m.last_updated_date⟩])) ∧
    (∀ m d, findMaster a.db nat = some m → m.last_updated_date = some d → cdate ≤ d →
      ∃ a', processRow none audit cn cp cdate now bid a (nat, hh) = .ok a' ∧
        a'.db.ea_frame = a.db.ea_frame ∧
        a'.mi = a.mi ∧ a'.mu = a.mu ∧ a'.ms = a.ms + 1 ∧
        (audit = true → a'.db.ea_uploads = a.db.ea_uploads
          ++ [⟨bid, nat, hh, cn, cp, cdate, "master_skipped",
               noteSkipped m.last_updated_by m.last_updated_project
                 m.last_updated_date⟩])) := by
  refine ⟨?_, ?_, ?_⟩
  · intro hnone
    have h := auditThenNote_none audit bid nat hh cn cp cdate "master_inserted"
      noteInserted
      { db := insertMaster nat hh cn cp cdate now a.db, ops := a.ops + 1,
        mi := a.mi + 1, mu := a.mu, ms := a.ms, notes := a.notes }
    obtain ⟨a', heq, hf, _, _, hmi, hmu, hms, haud, _⟩ := h
    refine ⟨a', ?_, ?_, ?_, ?_, ?_, ?_⟩
    · simp only [processRow, hnone, doWrite_none, Except.bind]
      exact heq
    · rw [hf]; simp [insertMaster]
    · rw [hmi]
    · rw [hmu]
    · rw [hms]
    · intro ht; rw [haud ht]; simp [insertMaster]
  · intro m hm hup
    have hcan : (match m.last_updated_date with
        | none => true
        | some d => decide (d < cdate)) = true := by
      rcases hup with h0 | ⟨d, hd, hlt⟩
      · rw [h0]
      · rw [hd]; simpa using hlt
    have h := auditThenNote_none audit bid nat hh cn cp cdate "master_updated"
      (noteUpdated m.last_updated_by m.last_updated_project m.last_updated_date)
      { db := updateMaster nat hh cn cp cdate now a.db, ops := a.ops + 1,
        mi := a.mi, mu := a.mu + 1, ms := a.ms, notes := a.notes }
    obtain ⟨a', heq, hf, _, _, hmi, hmu, hms, haud, _⟩ := h
    refine ⟨a', ?_, ?_, ?_, ?_, ?_, ?_⟩
    · simp only [processRow, hm, hcan, if_true, doWrite_none, Except.bind]
      exact heq
    · rw [hf]; simp [updateMaster]
    · rw [hmi]
    · rw [hmu]
    · rw [hms]
    · intro ht; rw [haud ht]; simp [updateMaster]
  · intro m d hm hd hle
    have hcan : (match m.last_updated_date with
        | none => true
        | some d => decide (d < cdate)) = false := by
      rw [hd]; simpa using Nat.not_lt.mpr hle
    have h := auditThenNote_none audit bid nat hh cn cp cdate "master_skipped"
      (noteSkipped m.last_updated_by m.last_updated_project m.last_updated_date)
      { db := a.db, ops := a.ops, mi := a.mi, mu := a.mu, ms := a.ms + 1,
        notes := a.notes }
    obtain ⟨a', heq, hf, _, _, hmi, hmu, hms, haud, _⟩ := h
    refine ⟨a', ?_, ?_, ?_, ?_, ?_, ?_⟩
    · simp only [processRow, hm, hcan, if_false, Except.bind]
      exact heq
    · rw [hf]
    · rw [hmi]
    · rw [hmu]
    · rw [hms]
    · intro ht; rw [haud ht]

/-- Witness for `conflict_resolution_per_row` at a concrete store: entity E
with stored date 10 is overwritten by a submission dated 11. -/
theorem conflict_resolution_per_row_witness :
    ∃ a', processRow none true "c" "p" 11 99 1
        ⟨⟨[⟨"E", 3, "x", "y", some 10, 0⟩, ⟨"L", 4, "x", "y", none, 0⟩], [], [], 5⟩,
         0, 0, 0, 0, []⟩ ("E", 7) = .ok a' ∧
      a'.db.ea_frame = [⟨"E", 7, "c", "p", some 11, 99⟩, ⟨"L", 4, "x", "y", none, 0⟩] ∧
      a'.mu = 1 := by
  obtain ⟨a', h1, h2, _, h4, _, _⟩ :=
    (conflict_resolution_per_row true "c" "p" 11 99 1
      ⟨⟨[⟨"E", 3, "x", "y", some 10, 0⟩, ⟨"L", 4, "x", "y", none, 0⟩], [], [], 5⟩,
       0, 0, 0, 0, []⟩ "E" 7).2.1
      ⟨"E", 3, "x", "y", some 10, 0⟩ (by decide) (Or.inr ⟨10, rfl, by decide⟩)
  exact ⟨a', h1, by rw [h2]; decide, by rw [h4]⟩

/-- Claim C2.  Idempotent re-upload, main.py lines 271-291: when a batch
with the same (client_name, client_project, collection_date, file_hash)
tuple already exists, the response reports the prior batch identifier and
timestamp and the database state is returned completely unchanged — this
holds for every fault-injection point, because the dedupe check precedes
every write. -/
theorem idempotent_reupload (failAt : Option Nat) (audit : Bool)
    (client_name client_project : String) (cdate : Nat) (fh : String)
    (dataRows : List (String × String)) (now : Nat) (st : DBState) (b : UploadBatch)
    (rows : List (String × Int)) (dup : Nat)
    (hcn : pyStrip client_name ≠ "") (hcp : pyStrip client_project ≠ "")
    (hparse : parse_csv_file dataRows = .ok rows dup)
    (hfind : st.upload_batches.find?
      (batchMatches (pyStrip client_name) (pyStrip client_project) cdate fh) = some b) :
    upload failAt audit client_name client_project cdate fh dataRows now st
      = (st, .alreadyUploaded b.id b.created_at) := by
  unfold upload
  rw [if_neg (by simp [hcn, hcp])]
  rw [hparse]
  unfold uploadTxn
  rw [hfind]
  rfl

/-- Witness for `idempotent_reupload`: re-submitting the tuple of batch 3
is a no-op even with a fault armed for the first write. -/
theorem idempotent_reupload_witness :
    upload (some 0) true "c" "p" 9 "hash1" [("E", "7")] 55
      ⟨[], [⟨3, "c", "p", 9, "hash1", 2, 2, 0, 0, 2, 0, 0, 44⟩], [], 4⟩
      = (⟨[], [⟨3, "c", "p", 9, "hash1", 2, 2, 0, 0, 2, 0, 0, 44⟩], [], 4⟩,
         .alreadyUploaded 3 44) :=
  idempotent_reupload (some 0) true "c" "p" 9 "hash1" [("E", "7")] 55
    ⟨[], [⟨3, "c", "p", 9, "hash1", 2, 2, 0, 0, 2, 0, 0, 44⟩], [], 4⟩
    ⟨3, "c", "p", 9, "hash1", 2, 2, 0, 0, 2, 0, 0, 44⟩ [("E", 7)] 0
    (by decide) (by decide) (by decide) (by decide)

/-- A committed transaction body never reports a storage error: the
`storageError` outcome arises only from a rolled-back (aborted) body. -/
theorem uploadTxn_ok_response (failAt : Option Nat) (audit : Bool) (cn cp : String)
    (cdate : Nat) (fh : String) (rows : List (String × Int)) (dup now : Nat)
    (st : DBState) (p : DBState × Response)
    (h : uploadTxn failAt audit cn cp cdate fh rows dup now st = .ok p) :
    p.2 ≠ .storageError := by
  unfold uploadTxn at h
  cases hfind : st.upload_batches.find? (batchMatches cn cp cdate fh) with
  | some b =>
      rw [hfind] at h
      cases h
      simp
  | none =>
      rw [hfind] at h
      simp only [] at h
      cases h0 : doWrite failAt
          (insertBatch cn cp cdate fh (rows.length + dup) rows.length dup now)
          ⟨st, 0, 0, 0, 0, []⟩ with
      | error e => rw [h0] at h; cases h
      | ok a0 =>
          rw [h0] at h
          simp only [Except.bind] at h
          cases h1 : processRows failAt audit cn cp cdate now st.next_batch_id rows a0 with
          | error e => rw [h1] at h; cases h
          | ok a1 =>
              rw [h1] at h
              simp only [] at h
              cases h2 : doWrite failAt
                  (updateBatchCounters st.next_batch_id a1.mi a1.mu a1.ms) a1 with
              | error e => rw [h2] at h; cases h
              | ok a2 =>
                  rw [h2] at h
                  simp only [Except.map] at h
                  cases h
                  simp

/-- Every run of the handler either leaves the state untouched and reports
the rolled-back transaction, or does not report a storage error at all. -/
theorem upload_fault_dichotomy (failAt : Option Nat) (audit : Bool)
    (client_name client_project : String) (cdate : Nat) (fh : String)
    (dataRows : List (String × String)) (now : Nat) (st : DBState) :
    upload failAt audit client_name client_project cdate fh dataRows now st
        = (st, .storageError) ∨
      (upload failAt audit client_name client_project cdate fh dataRows now st).2
        ≠ .storageError := by
  unfold upload
  split
  · right
    simp only []
    split <;> simp
  · next x rows dup heq =>
      simp only []
      split
      · right; simp
      · cases htxn : uploadTxn failAt audit (pyStrip client_name)
            (pyStrip client_project) cdate fh rows dup now st with
        | ok p =>
            right
            exact uploadTxn_ok_response failAt audit (pyStrip client_name)
              (pyStrip client_project) cdate fh rows dup now st p htxn
        | error e =>
            left
            rfl

/-- Claim C3.  Batch atomicity, main.py lines 271-379: every storage
operation of an upload (batch registration, per-row master writes, audit
inserts, counter finalization) runs inside one `engine.begin()` block, so
whenever a storage fault aborts the transaction — reported as
`storageError` — the resulting state is exactly the pre-upload state: no
batch row, no audit item and no master mutation survives, including writes
of rows processed before the failing operation. -/
theorem batch_atomicity (failAt : Option Nat) (audit : Bool)
    (client_name client_project : String) (cdate : Nat) (fh : String)
    (dataRows : List (String × String)) (now : Nat) (st : DBState)
    (h : (upload failAt audit client_name client_project cdate fh dataRows now st).2
      = .storageError) :
    (upload failAt audit client_name client_project cdate fh dataRows now st).1 = st := by
  rcases upload_fault_dichotomy failAt audit client_name client_project cdate fh
      dataRows now st with hcase | hcase
  · rw [hcase]
  · exact absurd h hcase

/-- Witness for `batch_atomicity`: a fault on the third write statement
(after the batch insert and the first row's master insert) rolls everything
back to the initial empty state. -/
theorem batch_atomicity_witness :
    (upload (some 2) false "c" "p" 5 "h" [("E1", "1"), ("E2", "2"), ("E3", "3")] 7
        ⟨[], [], [], 0⟩).2 = .storageError ∧
      (upload (some 2) false "c" "p" 5 "h" [("E1", "1"), ("E2", "2"), ("E3", "3")] 7
        ⟨[], [], [], 0⟩).1 = ⟨[], [], [], 0⟩ :=
  ⟨by decide,
   batch_atomicity (some 2) false "c" "p" 5 "h" [("E1", "1"), ("E2", "2"), ("E3", "3")]
     7 ⟨[], [], [], 0⟩ (by decide)⟩

/-- Counterexample to claim C6: a data row whose entity id duplicates an
earlier row's but whose household count is non-integer does NOT reject the
upload — the duplicate check of main.py line 181 runs before the count
parsing of line 188, so the row is silently skipped and counted. -/
theorem dup_with_bad_count_not_rejected :
    parse_csv_file [("A", "5"), ("A", "abc")] = .ok [("A", 5)] 1 := by decide

/-- Claim C6 as amended: only the empty-entity_id validation precedes
duplicate handling; the count validations follow it.  A row whose trimmed
entity id is empty always rejects citing the row, while a row duplicating
an earlier entity id is skipped and counted without its household count
ever being examined. -/
theorem validation_order_amended (natRaw hhRaw : String)
    (rest : List (String × String)) (i : Nat) (seen : List String)
    (acc : List (String × Int)) (dup : Nat) :
    (pyStrip natRaw = "" →
      parseGo ((natRaw, hhRaw) :: rest) i seen acc dup = .err (rowMsgEmpty i) dup) ∧
    (pyStrip natRaw ≠ "" → pyStrip natRaw ∈ seen →
      parseGo ((natRaw, hhRaw) :: rest) i seen acc dup
        = parseGo rest (i + 1) seen acc (dup + 1)) := by
  constructor
  · intro h
    simp [parseGo, h]
  · intro h1 h2
    simp [parseGo, h1, h2]

/-- Witness for `validation_order_amended` at concrete rows: an
all-whitespace id rejects row 2; a duplicate of A with count "xyz" is
skipped and counted. -/
theorem validation_order_amended_witness :
    parseGo [(" ", "7"), ("B", "1")] 2 [] [] 0 = .err (rowMsgEmpty 2) 0 ∧
      parseGo [("A", "xyz")] 3 ["A"] [("A", 5)] 0 = parseGo [] 4 ["A"] [("A", 5)] 1 :=
  ⟨(validation_order_amended " " "7" [("B", "1")] 2 [] [] 0).1 (by decide),
   (validation_order_amended "A" "xyz" [] 3 ["A"] [("A", 5)] 0).2
     (by decide) (by decide)⟩

/-- Counterexample to claim C8: the upload handler of main.py lines
221-228 takes only client_name, client_project, collection_date and the
file — there is no admin-override flag or credential — and a submission
whose collection date equals the stored date is always skipped, never
updated: no input reports `updated` for an earlier-or-equal date. -/
theorem admin_override_cex :
    (upload none false "b" "q" 10 "h" [("E", "7")] 1
        ⟨[⟨"E", 3, "a", "p", some 10, 0⟩], [], [], 0⟩).1.ea_frame
      = [⟨"E", 3, "a", "p", some 10, 0⟩] ∧
    (upload none false "b" "q" 10 "h" [("E", "7")] 1
        ⟨[⟨"E", 3, "a", "p", some 10, 0⟩], [], [], 0⟩).2
      = .accepted ⟨0, 1, 1, 0, 0, 0, 1⟩
          ["E: Not applied to master (older/equal date). Current master: a (p) on 10."] := by
  constructor
  · decide
  · decide

/-- When the audit/notes tail succeeds it never modifies the master or
batch tables or the resolver counters, for any fault setting. -/
theorem auditThenNote_ok (failAt : Option Nat) (audit : Bool) (bid : Nat)
    (nat : String) (hh : Int) (cn cp : String) (cdate : Nat) (status note : String)
    (a a' : Acc)
    (h : auditThenNote failAt audit bid nat hh cn cp cdate status note a = .ok a') :
    a'.db.ea_frame = a.db.ea_frame ∧ a'.db.upload_batches = a.db.upload_batches ∧
      a'.db.next_batch_id = a.db.next_batch_id ∧
      a'.mi = a.mi ∧ a'.mu = a.mu ∧ a'.ms = a.ms := by
  unfold auditThenNote at h
  cases audit with
  | false =>
      simp only [if_neg, Bool.false_eq_true, cond_false, Except.map] at h
      cases h
      simp
  | true =>
      simp only [if_pos] at h
      unfold doWrite at h
      split at h
      · cases h
      · simp only [Except.map] at h
        cases h
        simp [insertAudit]

/-- Claim C8 as amended: the interface has no override flag; for every
input whatsoever — any fault setting, audit flag, client fields, count —
a row whose submitted date is earlier than or equal to the stored date
leaves the master store unchanged and its outcome is the skip counter. -/
theorem no_override_possible (failAt : Option Nat) (audit : Bool) (cn cp : String)
    (cdate now bid : Nat) (a : Acc) (nat : String) (hh : Int) (m : MasterRecord)
    (d : Nat) (a' : Acc)
    (hm : findMaster a.db nat = some m) (hd : m.last_updated_date = some d)
    (hle : cdate ≤ d)
    (h : processRow failAt audit cn cp cdate now bid a (nat, hh) = .ok a') :
    a'.db.ea_frame = a.db.ea_frame ∧ a'.mi = a.mi ∧ a'.mu = a.mu ∧
      a'.ms = a.ms + 1 := by
  unfold processRow at h
  rw [hm] at h
  simp only [hd, decide_eq_false (Nat.not_lt.mpr hle), Bool.false_eq_true,
    if_false] at h
  obtain ⟨hf, _, _, hmi, hmu, hms⟩ := auditThenNote_ok failAt audit bid nat hh cn cp
    cdate "master_skipped"
    (noteSkipped m.last_updated_by m.last_updated_project (some d))
    { a with ms := a.ms + 1 } a' h
  exact ⟨hf, hmi, hmu, by rw [hms]⟩

/-- Witness for `no_override_possible`: equal dates (10 vs 10) skip, even
with auditing on. -/
theorem no_override_possible_witness :
    (⟨⟨[⟨"E", 3, "a", "p", some 10, 0⟩], [],
        [⟨1, "E", 7, "b", "q", 10, "master_skipped",
          "Not applied to master (older/equal date). Current master: a (p) on 10."⟩], 0⟩,
      1, 0, 0, 1,
      ["E: Not applied to master (older/equal date). Current master: a (p) on 10."]⟩
        : Acc).db.ea_frame = [⟨"E", 3, "a", "p", some 10, 0⟩] ∧
      (1 : Nat) = 0 + 1 := by
  have h := no_override_possible none true "b" "q" 10 77 1
    ⟨⟨[⟨"E", 3, "a", "p", some 10, 0⟩], [], [], 0⟩, 0, 0, 0, 0, []⟩ "E" 7
    ⟨"E", 3, "a", "p", some 10, 0⟩ 10
    ⟨⟨[⟨"E", 3, "a", "p", some 10, 0⟩], [],
        [⟨1, "E", 7, "b", "q", 10, "master_skipped",
          "Not applied to master (older/equal date). Current master: a (p) on 10."⟩], 0⟩,
      1, 0, 0, 1,
      ["E: Not applied to master (older/equal date). Current master: a (p) on 10."]⟩
    (by decide) (by decide) (by decide) (by rfl)
  exact ⟨h.1, h.2.2.2⟩

/-! ## Row numbering of rejections (claim C7) -/

/-- Counterexample to claim C7: the very first data row (data-row number 1)
with an empty entity id is rejected citing "Row 2" — the loop numbers rows
with `enumerate(reader, start=2)`, i.e. by physical file line (header =
line 1), not by 1-based data-row position. -/
theorem rejection_row_numbering_cex :
    parse_csv_file [("", "5")] = .err (rowMsgEmpty 2) 0 ∧
      rowMsgEmpty 2 ≠ rowMsgEmpty 1 := by
  constructor
  · decide
  · decide

/-- The rejection message produced for an offending data row at file line
number n: empty id, then unparsable count, then negative count. -/
def badRowMsg (bad : String × String) (n : Nat) : String :=
  if pyStrip bad.1 = "" then rowMsgEmpty n
  else
    match pyInt (pyStrip bad.2) with
    | none => rowMsgInt n
    | some _ => rowMsgNeg n

/-- Stepping over a prefix of individually valid data rows shifts the row
counter by the prefix length; the first invalid non-duplicate row then
rejects citing its physical line number. -/
theorem parseGo_first_invalid (bad : String × String) (rest : List (String × String)) :
    ∀ (pre : List (String × String)) (i : Nat) (seen : List String)
      (acc : List (String × Int)) (dup : Nat),
    (∀ p ∈ pre, pyStrip p.1 ≠ "" ∧ ∃ k, pyInt (pyStrip p.2) = some k ∧ 0 ≤ k) →
    pyStrip bad.1 ∉ seen →
    (∀ p ∈ pre, pyStrip bad.1 ≠ pyStrip p.1) →
    (pyStrip bad.1 = "" ∨ pyInt (pyStrip bad.2) = none ∨
      ∃ k, pyInt (pyStrip bad.2) = some k ∧ k < 0) →
    ∃ dup', parseGo (pre ++ bad :: rest) i seen acc dup
      = .err (badRowMsg bad (i + pre.length)) dup' := by
  obtain ⟨b1, b2⟩ := bad
  intro pre
  induction pre with
  | nil =>
      intro i seen acc dup _ hseen _ hbad
      refine ⟨dup, ?_⟩
      simp only [List.nil_append, List.length_nil, Nat.add_zero]
      by_cases hb1 : pyStrip b1 = ""
      · simp [parseGo, badRowMsg, hb1]
      · rcases hbad with h1 | h2 | ⟨k, hk, hneg⟩
        · exact absurd h1 hb1
        · simp [parseGo, badRowMsg, hb1, hseen, h2]
        · simp [parseGo, badRowMsg, hb1, hseen, hk, hneg]
  | cons p pre' ih =>
      intro i seen acc dup hpre hseen hne hbad
      obtain ⟨p1, p2⟩ := p
      obtain ⟨hp1, k, hk, hk0⟩ := hpre (p1, p2) (by simp)
      have hpre' : ∀ q ∈ pre', pyStrip q.1 ≠ ""
          ∧ ∃ k, pyInt (pyStrip q.2) = some k ∧ 0 ≤ k :=
        fun q hq => hpre q (by simp [hq])
      have hne' : ∀ q ∈ pre', pyStrip b1 ≠ pyStrip q.1 :=
        fun q hq => hne q (by simp [hq])
      by_cases hmem : pyStrip p1 ∈ seen
      · obtain ⟨dup', hd⟩ := ih (i + 1) seen acc (dup + 1) hpre' hseen hne' hbad
        refine ⟨dup', ?_⟩
        have harith : i + ((p1, p2) :: pre').length = (i + 1) + pre'.length := by
          simp [List.length_cons]; omega
        rw [harith]
        simpa [parseGo, hp1, hmem] using hd
      · have hbadne : pyStrip b1 ∉ pyStrip p1 :: seen := by
          intro hx
          rcases List.mem_cons.mp hx with h | h
          · exact hne (p1, p2) (by simp) h
          · exact hseen h
        obtain ⟨dup', hd⟩ := ih (i + 1) (pyStrip p1 :: seen)
          (acc ++ [(pyStrip p1, k)]) dup hpre' hbadne hne' hbad
        refine ⟨dup', ?_⟩
        have harith : i + ((p1, p2) :: pre').length = (i + 1) + pre'.length := by
          simp [List.length_cons]; omega
        rw [harith]
        simpa [parseGo, hp1, hmem, hk, Int.not_lt.mpr hk0] using hd

/-- Any parse rejection leaves storage untouched: the handler returns the
unchanged state with a `rejected` response before any transaction opens. -/
theorem upload_parse_err (failAt : Option Nat) (audit : Bool)
    (client_name client_project : String) (cdate : Nat) (fh : String)
    (dataRows : List (String × String)) (now : Nat) (st : DBState)
    (msg : String) (d : Nat) (h : parse_csv_file dataRows = .err msg d) :
    (upload failAt audit client_name client_project cdate fh dataRows now st).1 = st ∧
      ∃ m2, (upload failAt audit client_name client_project cdate fh dataRows now st).2
        = .rejected m2 := by
  unfold upload
  simp only []
  split
  · exact ⟨rfl, _, rfl⟩
  · rw [h]
    exact ⟨rfl, msg, rfl⟩

/-- Claim C7 as amended: if the first invalid data row is the k-th data row
(k = pre.length + 1), the upload is rejected citing row k + 1 — the
physical file line, with the header counted as line 1 — naming the first
failed validation (empty id, then non-integer count, then negative count),
and the rejection leaves the database state completely unchanged. -/
theorem rejection_row_numbering_amended (pre : List (String × String))
    (bad : String × String) (rest : List (String × String))
    (hpre : ∀ p ∈ pre, pyStrip p.1 ≠ "" ∧ ∃ k, pyInt (pyStrip p.2) = some k ∧ 0 ≤ k)
    (hne : ∀ p ∈ pre, pyStrip bad.1 ≠ pyStrip p.1)
    (hbad : pyStrip bad.1 = "" ∨ pyInt (pyStrip bad.2) = none ∨
      ∃ k, pyInt (pyStrip bad.2) = some k ∧ k < 0) :
    (∃ dup', parse_csv_file (pre ++ bad :: rest)
      = .err (badRowMsg bad ((pre.length + 1) + 1)) dup') ∧
    (∀ (failAt : Option Nat) (audit : Bool) (cn cp : String) (cdate : Nat)
       (fh : String) (now : Nat) (st : DBState),
      (upload failAt audit cn cp cdate fh (pre ++ bad :: rest) now st).1 = st ∧
      ∃ m2, (upload failAt audit cn cp cdate fh (pre ++ bad :: rest) now st).2
        = .rejected m2) := by
  have hmain := parseGo_first_invalid bad rest pre 2 [] [] 0 hpre
    (by simp) hne hbad
  obtain ⟨dup', hd⟩ := hmain
  have hnum : 2 + pre.length = (pre.length + 1) + 1 := by omega
  rw [hnum] at hd
  refine ⟨⟨dup', hd⟩, ?_⟩
  intro failAt audit cn cp cdate fh now st
  exact upload_parse_err failAt audit cn cp cdate fh (pre ++ bad :: rest) now st
    (badRowMsg bad ((pre.length + 1) + 1)) dup' hd

/-- Witness for `rejection_row_numbering_amended`: with one valid row
before it, a negative count in data row 2 rejects citing file line 3 and
leaves an empty database empty. -/
theorem rejection_row_numbering_amended_witness :
    (∃ dup', parse_csv_file [("A", "5"), ("B", "-2"), ("C", "1")]
      = .err (rowMsgNeg 3) dup') ∧
    (upload none false "c" "p" 1 "h" [("A", "5"), ("B", "-2"), ("C", "1")] 0
      ⟨[], [], [], 0⟩).1 = ⟨[], [], [], 0⟩ := by
  have h := rejection_row_numbering_amended [("A", "5")] ("B", "-2") [("C", "1")]
    (by decide) (by decide) (by right; right; exact ⟨-2, by decide, by decide⟩)
  refine ⟨?_, (h.2 none false "c" "p" 1 "h" 0 ⟨[], [], [], 0⟩).1⟩
  obtain ⟨dup', hd⟩ := h.1
  exact ⟨dup', hd⟩

/-! ## In-file deduplication (claim C5) -/

/-- Modelled from the spec: keep the first occurrence of each entity id,
in input order, given the set of ids already seen. -/
def firstOccurrences : List (String × Int) → List String → List (String × Int)
  | [], _ => []
  | (n, h) :: rest, seen =>
      if n ∈ seen then firstOccurrences rest seen
      else (n, h) :: firstOccurrences rest (n :: seen)

/-- Modelled from the spec: the number of rows whose entity id already
occurred earlier (or is in `seen`). -/
def dupCount : List (String × Int) → List String → Nat
  | [], _ => 0
  | (n, _) :: rest, seen =>
      if n ∈ seen then dupCount rest seen + 1 else dupCount rest (n :: seen)

/-- The trimmed (entity id, parsed count) view of raw data rows. -/
def trimmedRows (dataRows : List (String × String)) : List (String × Int) :=
  dataRows.map (fun p => (pyStrip p.1, (pyInt (pyStrip p.2)).getD 0))

/-- On a file of individually valid rows, the parser loop is exactly
first-occurrence filtering plus duplicate counting. -/
theorem parseGo_all_valid (dataRows : List (String × String)) :
    ∀ (i : Nat) (seen : List String) (acc : List (String × Int)) (dup : Nat),
    (∀ p ∈ dataRows, pyStrip p.1 ≠ "" ∧ ∃ k, pyInt (pyStrip p.2) = some k ∧ 0 ≤ k) →
    parseGo dataRows i seen acc dup =
      if acc ++ firstOccurrences (trimmedRows dataRows) seen = [] then
        .err msgNoValid (dup + dupCount (trimmedRows dataRows) seen)
      else
        .ok (acc ++ firstOccurrences (trimmedRows dataRows) seen)
          (dup + dupCount (trimmedRows dataRows) seen) := by
  induction dataRows with
  | nil =>
      intro i seen acc dup _
      simp [parseGo, trimmedRows, firstOccurrences, dupCount]
  | cons p rest ih =>
      intro i seen acc dup hall
      obtain ⟨p1, p2⟩ := p
      obtain ⟨hp1, k, hk, hk0⟩ := hall (p1, p2) (by simp)
      have hrest : ∀ q ∈ rest, pyStrip q.1 ≠ ""
          ∧ ∃ k, pyInt (pyStrip q.2) = some k ∧ 0 ≤ k :=
        fun q hq => hall q (by simp [hq])
      have htrim : trimmedRows ((p1, p2) :: rest)
          = (pyStrip p1, k) :: trimmedRows rest := by
        simp [trimmedRows, hk]
      rw [htrim]
      by_cases hmem : pyStrip p1 ∈ seen
      · rw [show parseGo ((p1, p2) :: rest) i seen acc dup
            = parseGo rest (i + 1) seen acc (dup + 1) from by
          simp [parseGo, hp1, hmem]]
        rw [ih (i + 1) seen acc (dup + 1) hrest]
        simp only [firstOccurrences, dupCount, if_pos hmem]
        have : dup + 1 + dupCount (trimmedRows rest) seen
            = dup + (dupCount (trimmedRows rest) seen + 1) := by omega
        rw [this]
      · rw [show parseGo ((p1, p2) :: rest) i seen acc dup
            = parseGo rest (i + 1) (pyStrip p1 :: seen)
                (acc ++ [(pyStrip p1, k)]) dup from by
          simp [parseGo, hp1, hmem, hk, Int.not_lt.mpr hk0]]
        rw [ih (i + 1) (pyStrip p1 :: seen) (acc ++ [(pyStrip p1, k)]) dup hrest]
        simp only [firstOccurrences, dupCount, if_neg hmem]
        rw [List.append_assoc]
        rfl

/-- Each row is either kept (first occurrence) or counted as a duplicate:
the two spec-side functions partition the input. -/
theorem firstOccurrences_length (l : List (String × Int)) :
    ∀ seen, l.length = (firstOccurrences l seen).length + dupCount l seen := by
  induction l with
  | nil => intro seen; simp [firstOccurrences, dupCount]
  | cons p rest ih =>
      intro seen
      obtain ⟨n, h⟩ := p
      by_cases hmem : n ∈ seen
      · simp only [firstOccurrences, dupCount, if_pos hmem, List.length_cons,
          ih seen]
        omega
      · simp only [firstOccurrences, dupCount, if_neg hmem, List.length_cons,
          ih (n :: seen)]
        omega

/-- Claim C5.  In-file deduplication, main.py lines 170-200: on a file of
individually valid rows, a repeated entity id never causes rejection; the
parser returns exactly the first occurrence of each id, in input order,
and the duplicate counter counts every later occurrence, one per row. -/
theorem in_file_dedup (dataRows : List (String × String))
    (hne : dataRows ≠ [])
    (hall : ∀ p ∈ dataRows, pyStrip p.1 ≠ ""
      ∧ ∃ k, pyInt (pyStrip p.2) = some k ∧ 0 ≤ k) :
    parse_csv_file dataRows
      = .ok (firstOccurrences (trimmedRows dataRows) [])
          (dupCount (trimmedRows dataRows) []) ∧
    (trimmedRows dataRows).length
      = (firstOccurrences (trimmedRows dataRows) []).length
        + dupCount (trimmedRows dataRows) [] := by
  refine ⟨?_, firstOccurrences_length (trimmedRows dataRows) []⟩
  have h := parseGo_all_valid dataRows 2 [] [] 0 hall
  have hnonempty : firstOccurrences (trimmedRows dataRows) [] ≠ [] := by
    cases dataRows with
    | nil => exact absurd rfl hne
    | cons q qrest =>
        obtain ⟨q1, q2⟩ := q
        obtain ⟨hq1, kq, hkq, _⟩ := hall (q1, q2) (by simp)
        simp [trimmedRows, firstOccurrences, hkq]
  unfold parse_csv_file
  rw [h]
  simp [hnonempty]

/-- Witness for `in_file_dedup`: the spec's worked example
[(A,5),(B,3),(A,7)] keeps [(A,5),(B,3)] with one duplicate counted. -/
theorem in_file_dedup_witness :
    parse_csv_file [("A", "5"), ("B", "3"), ("A", "7")] = .ok [("A", 5), ("B", 3)] 1 := by
  have h := in_file_dedup [("A", "5"), ("B", "3"), ("A", "7")]
    (by decide) (by decide)
  rw [h.1]
  rfl

/-! ## Master-store invariants (claims C4, C10) -/

/-- Keyed lookups never lose records and their collection dates never
decrease: the ordering preserved by every successful apply. -/
def masterLe (l l' : List MasterRecord) : Prop :=
  ∀ nat r, l.find? (fun x => x.nat_ea_sn = nat) = some r →
    ∃ r', l'.find? (fun x => x.nat_ea_sn = nat) = some r' ∧
      ∀ d, r.last_updated_date = some d →
        ∃ d', r'.last_updated_date = some d' ∧ d ≤ d'

theorem masterLe_refl (l : List MasterRecord) : masterLe l l :=
  fun _ r h => ⟨r, h, fun d hd => ⟨d, hd, le_refl d⟩⟩

theorem masterLe_trans {l1 l2 l3 : List MasterRecord}
    (h12 : masterLe l1 l2) (h23 : masterLe l2 l3) : masterLe l1 l3 := by
  intro nat r h1
  obtain ⟨r2, h2, hd12⟩ := h12 nat r h1
  obtain ⟨r3, h3, hd23⟩ := h23 nat r2 h2
  refine ⟨r3, h3, fun d hd => ?_⟩
  obtain ⟨d2, hd2, hle⟩ := hd12 d hd
  obtain ⟨d3, hd3, hle2⟩ := hd23 d2 hd2
  exact ⟨d3, hd3, le_trans hle hle2⟩

theorem find?_append_some {α : Type} (p : α → Bool) (l1 l2 : List α) (a : α)
    (h : l1.find? p = some a) : (l1 ++ l2).find? p = some a := by
  induction l1 with
  | nil => cases h
  | cons x t ih =>
      rw [List.cons_append]
      cases hp : p x
      · simp only [List.find?_cons, hp] at h ⊢
        exact ih h
      · simp only [List.find?_cons, hp] at h ⊢
        exact h

theorem find?_map_key (g : MasterRecord → MasterRecord)
    (hg : ∀ r, (g r).nat_ea_sn = r.nat_ea_sn) (l : List MasterRecord) (nat : String) :
    (l.map g).find? (fun x => x.nat_ea_sn = nat)
      = (l.find? (fun x => x.nat_ea_sn = nat)).map g := by
  induction l with
  | nil => rfl
  | cons r t ih =>
      by_cases hp : r.nat_ea_sn = nat
      · simp [List.find?_cons, hg, hp]
      · simp [List.find?_cons, hg, hp, ih]

theorem masterLe_append (l : List MasterRecord) (x : MasterRecord) :
    masterLe l (l ++ [x]) :=
  fun _ r h => ⟨r, find?_append_some _ l [x] r h, fun d hd => ⟨d, hd, le_refl d⟩⟩

/-- Overwriting the record keyed `nat` with a strictly newer (or first)
date preserves the ordering for every key. -/
theorem masterLe_overwrite (l : List MasterRecord) (nat : String) (hh : Int)
    (cn cp : String) (cdate now : Nat) (m : MasterRecord)
    (hm : l.find? (fun x => x.nat_ea_sn = nat) = some m)
    (hok : m.last_updated_date = none ∨ ∃ d0, m.last_updated_date = some d0 ∧ d0 < cdate) :
    masterLe l (l.map (fun r =>
      if r.nat_ea_sn = nat then
        { r with household_count := hh, last_updated_by := cn,
                 last_updated_project := cp, last_updated_date := some cdate,
                 last_updated_at := now }
      else r)) := by
  intro nat' r hr
  have hg : ∀ r : MasterRecord,
      ((fun r : MasterRecord =>
        if r.nat_ea_sn = nat then
          { r with household_count := hh, last_updated_by := cn,
                   last_updated_project := cp, last_updated_date := some cdate,
                   last_updated_at := now }
        else r) r).nat_ea_sn = r.nat_ea_sn := by
    intro r
    by_cases h : r.nat_ea_sn = nat <;> simp [h]
  rw [find?_map_key _ hg l nat', hr]
  refine ⟨_, rfl, ?_⟩
  intro d hd
  by_cases hkey : r.nat_ea_sn = nat
  · have hr' : r.nat_ea_sn = nat' := by simpa using List.find?_some hr
    have hnn : nat' = nat := by rw [← hr', hkey]
    subst hnn
    have hrm : r = m := by
      rw [hr] at hm
      exact Option.some.inj hm
    subst hrm
    rcases hok with h0 | ⟨d0, hd0, hlt⟩
    · rw [h0] at hd; cases hd
    · rw [hd0] at hd
      cases hd
      exact ⟨cdate, by simp [hkey], le_of_lt hlt⟩
  · exact ⟨d, by simp [hkey, hd], le_refl d⟩

/-- One resolver step with no fault: it succeeds, preserves the date
ordering and count non-negativity of the master store, adds exactly one to
the three counters combined, and never touches the batch table. -/
theorem processRow_none_invariants (audit : Bool) (cn cp : String)
    (cdate now bid : Nat) (a : Acc) (nat : String) (hh : Int) (hh0 : 0 ≤ hh) :
    ∃ a', processRow none audit cn cp cdate now bid a (nat, hh) = .ok a' ∧
      masterLe a.db.ea_frame a'.db.ea_frame ∧
      ((∀ r ∈ a.db.ea_frame, 0 ≤ r.household_count) →
        ∀ r ∈ a'.db.ea_frame, 0 ≤ r.household_count) ∧
      a'.mi + a'.mu + a'.ms = a.mi + a.mu + a.ms + 1 ∧
      a'.db.upload_batches = a.db.upload_batches ∧
      a'.db.next_batch_id = a.db.next_batch_id := by
  cases hfind : findMaster a.db nat with
  | none =>
      obtain ⟨a', heq, hf, hb, hn, hmi, hmu, hms, _, _⟩ :=
        auditThenNote_none audit bid nat hh cn cp cdate "master_inserted" noteInserted
          { a with db := insertMaster nat hh cn cp cdate now a.db,
                   ops := a.ops + 1, mi := a.mi + 1 }
      refine ⟨a', ?_, ?_, ?_, ?_, ?_, ?_⟩
      · simp only [processRow, hfind, doWrite_none, Except.bind]
        exact heq
      · rw [hf]
        simp only [insertMaster]
        exact masterLe_append a.db.ea_frame _
      · rw [hf]
        simp only [insertMaster]
        intro h0 r hr
        rcases List.mem_append.mp hr with h | h
        · exact h0 r h
        · rcases List.mem_singleton.mp h with rfl
          exact hh0
      · rw [hmi, hmu, hms]
        simp only []
        omega
      · rw [hb]
        simp [insertMaster]
      · rw [hn]
        simp [insertMaster]
  | some m =>
      cases hcan : (match m.last_updated_date with
        | none => true
        | some d => decide (d < cdate)) with
      | true =>
          have hok : m.last_updated_date = none
              ∨ ∃ d0, m.last_updated_date = some d0 ∧ d0 < cdate := by
            cases hdm : m.last_updated_date with
            | none => exact Or.inl rfl
            | some d0 =>
                rw [hdm] at hcan
                exact Or.inr ⟨d0, rfl, of_decide_eq_true hcan⟩
          obtain ⟨a', heq, hf, hb, hn, hmi, hmu, hms, _, _⟩ :=
            auditThenNote_none audit bid nat hh cn cp cdate "master_updated"
              (noteUpdated m.last_updated_by m.last_updated_project
                m.last_updated_date)
              { a with db := updateMaster nat hh cn cp cdate now a.db,
                       ops := a.ops + 1, mu := a.mu + 1 }
          refine ⟨a', ?_, ?_, ?_, ?_, ?_, ?_⟩
          · simp only [processRow, hfind, hcan, if_true, doWrite_none, Except.bind]
            exact heq
          · rw [hf]
            simp only [updateMaster]
            exact masterLe_overwrite a.db.ea_frame nat hh cn cp cdate now m hfind hok
          · rw [hf]
            simp only [updateMaster]
            intro h0 r hr
            rcases List.mem_map.mp hr with ⟨r0, hr0, rfl⟩
            by_cases hkey : r0.nat_ea_sn = nat
            · simpa [hkey] using hh0
            · simpa [hkey] using h0 r0 hr0
          · rw [hmi, hmu, hms]
            simp only []
            omega
          · rw [hb]
            simp [updateMaster]
          · rw [hn]
            simp [updateMaster]
      | false =>
          obtain ⟨a', heq, hf, hb, hn, hmi, hmu, hms, _, _⟩ :=
            auditThenNote_none audit bid nat hh cn cp cdate "master_skipped"
              (noteSkipped m.last_updated_by m.last_updated_project
                m.last_updated_date)
              { a with ms := a.ms + 1 }
          refine ⟨a', ?_, ?_, ?_, ?_, ?_, ?_⟩
          · simp only [processRow, hfind, hcan, Bool.false_eq_true, if_false]
            exact heq
          · rw [hf]
            exact masterLe_refl _
          · rw [hf]
            exact fun h0 => h0
          · rw [hmi, hmu, hms]
            simp only []
            omega
          · rw [hb]
          · rw [hn]

/-- The whole per-row loop with no fault: success, invariant preservation,
and exactly one counted outcome per row. -/
theorem processRows_none_invariants (audit : Bool) (cn cp : String)
    (cdate now bid : Nat) :
    ∀ (rows : List (String × Int)) (a : Acc), (∀ q ∈ rows, 0 ≤ q.2) →
    ∃ a', processRows none audit cn cp cdate now bid rows a = .ok a' ∧
      masterLe a.db.ea_frame a'.db.ea_frame ∧
      ((∀ r ∈ a.db.ea_frame, 0 ≤ r.household_count) →
        ∀ r ∈ a'.db.ea_frame, 0 ≤ r.household_count) ∧
      a'.mi + a'.mu + a'.ms = a.mi + a.mu + a.ms + rows.length ∧
      a'.db.upload_batches = a.db.upload_batches ∧
      a'.db.next_batch_id = a.db.next_batch_id := by
  intro rows
  induction rows with
  | nil =>
      intro a _
      exact ⟨a, rfl, masterLe_refl _, fun h => h, by simp, rfl, rfl⟩
  | cons q qrest ih =>
      intro a hall
      obtain ⟨q1, q2⟩ := q
      obtain ⟨a1, h1, hle1, hn1, hc1, hb1, hnext1⟩ :=
        processRow_none_invariants audit cn cp cdate now bid a q1 q2
          (hall (q1, q2) (by simp))
      obtain ⟨a2, h2, hle2, hn2, hc2, hb2, hnext2⟩ :=
        ih a1 (fun q hq => hall q (by simp [hq]))
      refine ⟨a2, ?_, masterLe_trans hle1 hle2, fun h0 => hn2 (hn1 h0), ?_,
        hb2.trans hb1, hnext2.trans hnext1⟩
      · simp only [processRows, h1, Except.bind]
        exact h2
      · simp only [List.length_cons]
        omega

/-- Rows surviving the parser always carry non-negative counts. -/
theorem parseGo_ok_nonneg :
    ∀ (dataRows : List (String × String)) (i : Nat) (seen : List String)
      (acc : List (String × Int)) (dup : Nat) (rows : List (String × Int)) (dup' : Nat),
    (∀ q ∈ acc, 0 ≤ q.2) → parseGo dataRows i seen acc dup = .ok rows dup' →
    ∀ q ∈ rows, 0 ≤ q.2 := by
  intro dataRows
  induction dataRows with
  | nil =>
      intro i seen acc dup rows dup' hacc h
      simp only [parseGo] at h
      split at h
      · cases h
      · cases h
        exact hacc
  | cons p rest ih =>
      intro i seen acc dup rows dup' hacc h
      obtain ⟨p1, p2⟩ := p
      simp only [parseGo] at h
      split at h
      · cases h
      · split at h
        · exact ih (i + 1) seen acc (dup + 1) rows dup' hacc h
        · split at h
          · cases h
          · next hh hhh =>
              split at h
              · cases h
              · next hneg =>
                  refine ih (i + 1) _ _ dup rows dup' ?_ h
                  intro q hq
                  rcases List.mem_append.mp hq with hq1 | hq1
                  · exact hacc q hq1
                  · rcases List.mem_singleton.mp hq1 with rfl
                    exact Int.not_lt.mp hneg

/-- Claim C10.  Counter consistency, main.py lines 262-391: a successfully
accepted upload gives every parsed unique row exactly one of the three
outcomes, so the summary satisfies master_inserted + master_updated +
master_skipped = valid_rows and total_rows = valid_rows + duplicate_in_file,
and the finalized batch row records the same counters. -/
theorem counter_consistency (audit : Bool) (client_name client_project : String)
    (cdate : Nat) (fh : String) (dataRows : List (String × String)) (now : Nat)
    (st : DBState) (rows : List (String × Int)) (dup : Nat)
    (hcn : pyStrip client_name ≠ "") (hcp : pyStrip client_project ≠ "")
    (hparse : parse_csv_file dataRows = .ok rows dup)
    (hnodup : st.upload_batches.find?
      (batchMatches (pyStrip client_name) (pyStrip client_project) cdate fh) = none) :
    ∃ st' mi mu ms notes,
      upload none audit client_name client_project cdate fh dataRows now st
        = (st', .accepted ⟨st.next_batch_id, rows.length + dup, rows.length, dup,
            mi, mu, ms⟩ notes) ∧
      mi + mu + ms = rows.length ∧
      ∃ b ∈ st'.upload_batches, b.id = st.next_batch_id ∧
        b.total_rows = rows.length + dup ∧ b.valid_rows = rows.length ∧
        b.duplicate_in_file = dup ∧ b.master_inserted = mi ∧
        b.master_updated = mu ∧ b.master_skipped = ms := by
  have hrows0 : ∀ q ∈ rows, 0 ≤ q.2 :=
    parseGo_ok_nonneg dataRows 2 [] [] 0 rows dup (by simp) hparse
  obtain ⟨a1, h1, _, _, hc1, hb1, hnext1⟩ :=
    processRows_none_invariants audit (pyStrip client_name) (pyStrip client_project)
      cdate now st.next_batch_id rows
      { db := insertBatch (pyStrip client_name) (pyStrip client_project) cdate fh
          (rows.length + dup) rows.length dup now st,
        ops := 0 + 1, mi := 0, mu := 0, ms := 0, notes := [] } hrows0
  unfold upload
  rw [if_neg (by simp [hcn, hcp]), hparse]
  unfold uploadTxn
  rw [hnodup]
  simp only [doWrite_none, Except.bind]
  rw [h1]
  simp only [doWrite_none, Except.map, runTxn]
  refine ⟨_, a1.mi, a1.mu, a1.ms, _, rfl, ?_, ?_⟩
  · simpa using hc1
  · have hbatches : a1.db.upload_batches = st.upload_batches
        ++ [⟨st.next_batch_id, pyStrip client_name, pyStrip client_project, cdate,
             fh, rows.length + dup, rows.length, 0, dup, 0, 0, 0, now⟩] := by
      rw [hb1]
      simp [insertBatch]
    simp only [updateBatchCounters]
    rw [hbatches]
    refine ⟨_, List.mem_map_of_mem _
      (List.mem_append_right st.upload_batches (List.mem_singleton_self _)),
      ?_, ?_, ?_, ?_, ?_, ?_, ?_⟩
    · simp
    · simp
    · simp
    · simp
    · simp
    · simp
    · simp

/-- Witness for `counter_consistency`: three raw rows with one in-file
duplicate give valid_rows 2, total 3 and outcome counters summing to 2. -/
theorem counter_consistency_witness :
    ∃ st' mi mu ms notes,
      upload none true "c" "p" 11 "h9" [("E", "7"), ("F", "2"), ("E", "9")] 99
        ⟨[⟨"E", 3, "x", "y", some 10, 0⟩],
         [⟨4, "c", "p", 11, "zz", 1, 1, 0, 0, 1, 0, 0, 50⟩], [], 5⟩
        = (st', .accepted ⟨5, 3, 2, 1, mi, mu, ms⟩ notes) ∧ mi + mu + ms = 2 := by
  obtain ⟨st', mi, mu, ms, notes, h1, h2, _⟩ :=
    counter_consistency true "c" "p" 11 "h9" [("E", "7"), ("F", "2"), ("E", "9")] 99
      ⟨[⟨"E", 3, "x", "y", some 10, 0⟩],
       [⟨4, "c", "p", 11, "zz", 1, 1, 0, 0, 1, 0, 0, 50⟩], [], 5⟩
      [("E", 7), ("F", 2)] 1 (by decide) (by decide) (by decide) (by decide)
  exact ⟨st', mi, mu, ms, notes, h1, h2⟩

/-- Claim C4.  Master-store invariants, main.py lines 332-354: any upload
run preserves non-negativity of every stored household count, and for every
entity the stored collection date never decreases — records are only
overwritten when the stored date is unset or the incoming date is strictly
later (there is no override input). -/
theorem master_invariants (audit : Bool) (client_name client_project : String)
    (cdate : Nat) (fh : String) (dataRows : List (String × String)) (now : Nat)
    (st st' : DBState) (resp : Response)
    (h : upload none audit client_name client_project cdate fh dataRows now st
      = (st', resp)) :
    ((∀ r ∈ st.ea_frame, 0 ≤ r.household_count) →
      ∀ r ∈ st'.ea_frame, 0 ≤ r.household_count) ∧
    masterLe st.ea_frame st'.ea_frame := by
  unfold upload at h
  split at h
  · simp only [] at h
    split at h
    · cases h
      exact ⟨fun h0 => h0, masterLe_refl _⟩
    · cases h
      exact ⟨fun h0 => h0, masterLe_refl _⟩
  · next x rows dup heq =>
      simp only [] at h
      split at h
      · cases h
        exact ⟨fun h0 => h0, masterLe_refl _⟩
      · have hrows0 : ∀ q ∈ rows, 0 ≤ q.2 :=
          parseGo_ok_nonneg dataRows 2 [] [] 0 rows dup (by simp) heq
        unfold uploadTxn at h
        cases hfind : st.upload_batches.find?
            (batchMatches (pyStrip client_name) (pyStrip client_project) cdate fh) with
        | some b =>
            rw [hfind] at h
            simp only [runTxn] at h
            cases h
            exact ⟨fun h0 => h0, masterLe_refl _⟩
        | none =>
            rw [hfind] at h
            simp only [doWrite_none, Except.bind] at h
            obtain ⟨a1, h1, hle1, hn1, _, _, _⟩ :=
              processRows_none_invariants audit (pyStrip client_name)
                (pyStrip client_project) cdate now st.next_batch_id rows
                { db := insertBatch (pyStrip client_name) (pyStrip client_project)
                    cdate fh (rows.length + dup) rows.length dup now st,
                  ops := 0 + 1, mi := 0, mu := 0, ms := 0, notes := [] } hrows0
            rw [h1] at h
            simp only [doWrite_none, Except.map, runTxn] at h
            cases h
            constructor
            · intro h0
              have := hn1 (by simpa [insertBatch] using h0)
              simpa [insertBatch, updateBatchCounters] using this
            · have : masterLe st.ea_frame a1.db.ea_frame := by
                simpa [insertBatch] using hle1
              simpa [updateBatchCounters] using this

/-- Witness for `master_invariants`: a mixed update/insert run against a
store holding E at date 10. -/
theorem master_invariants_witness :
    ((∀ r ∈ ([⟨"E", 3, "x", "y", some 10, 0⟩] : List MasterRecord),
        0 ≤ r.household_count) →
      ∀ r ∈ (upload none false "c" "p" 11 "h" [("E", "7"), ("G", "2")] 99
        ⟨[⟨"E", 3, "x", "y", some 10, 0⟩], [], [], 0⟩).1.ea_frame,
          0 ≤ r.household_count) ∧
    masterLe [⟨"E", 3, "x", "y", some 10, 0⟩]
      (upload none false "c" "p" 11 "h" [("E", "7"), ("G", "2")] 99
        ⟨[⟨"E", 3, "x", "y", some 10, 0⟩], [], [], 0⟩).1.ea_frame :=
  master_invariants false "c" "p" 11 "h" [("E", "7"), ("G", "2")] 99
    ⟨[⟨"E", 3, "x", "y", some 10, 0⟩], [], [], 0⟩
    (upload none false "c" "p" 11 "h" [("E", "7"), ("G", "2")] 99
      ⟨[⟨"E", 3, "x", "y", some 10, 0⟩], [], [], 0⟩).1
    (upload none false "c" "p" 11 "h" [("E", "7"), ("G", "2")] 99
      ⟨[⟨"E", 3, "x", "y", some 10, 0⟩], [], [], 0⟩).2
    rfl

/-! ## Fingerprint normalization (claim C9): strip-level lemmas -/

theorem dropWhile_append_all {α : Type} (p : α → Bool) (a b : List α)
    (h : ∀ c ∈ a, p c = true) : (a ++ b).dropWhile p = b.dropWhile p := by
  induction a with
  | nil => rfl
  | cons x t ih =>
      rw [List.cons_append]
      simp only [List.dropWhile_cons, h x (List.mem_cons_self x t), if_true]
      exact ih (fun c hc => h c (List.mem_cons_of_mem x hc))

theorem dropWhile_eq_self_of_all {α : Type} (p : α → Bool) (l : List α)
    (h : ∀ c ∈ l, p c = false) : l.dropWhile p = l := by
  cases l with
  | nil => rfl
  | cons x t => simp [List.dropWhile_cons, h x (by simp)]

theorem dropWhile_append_cons {α : Type} (p : α → Bool) (a b : List α)
    (x : α) (xs : List α) (h : a.dropWhile p = x :: xs) :
    (a ++ b).dropWhile p = x :: (xs ++ b) := by
  induction a with
  | nil => cases h
  | cons y t ih =>
      rw [List.cons_append]
      rw [List.dropWhile_cons] at h ⊢
      cases hp : p y with
      | true =>
          rw [hp] at h
          simp only [if_true] at h ⊢
          exact ih h
      | false =>
          rw [hp] at h
          simp only [Bool.false_eq_true, if_false] at h ⊢
          cases h
          rfl

theorem rstrip_append_ws (l w : List Char) (h : ∀ c ∈ w, isPySpace c = true) :
    rstripChars (l ++ w) = rstripChars l := by
  unfold rstripChars
  rw [List.reverse_append,
    dropWhile_append_all _ _ _ (fun c hc => h c (List.mem_reverse.mp hc))]

theorem rstrip_all_ws (w : List Char) (h : ∀ c ∈ w, isPySpace c = true) :
    rstripChars w = [] := by
  unfold rstripChars
  have hall : w.reverse.dropWhile isPySpace = [] := by
    rw [List.dropWhile_eq_nil_iff]
    intro x hx
    exact h x (List.mem_reverse.mp hx)
  rw [hall]
  rfl

theorem rstrip_no_ws (l : List Char) (h : ∀ c ∈ l, isPySpace c = false) :
    rstripChars l = l := by
  unfold rstripChars
  rw [dropWhile_eq_self_of_all _ _ (fun c hc => h c (List.mem_reverse.mp hc)),
    List.reverse_reverse]

theorem lstrip_ws_append (w l : List Char) (h : ∀ c ∈ w, isPySpace c = true) :
    lstripChars (w ++ l) = lstripChars l :=
  dropWhile_append_all _ w l h

theorem rstrip_ws_append_of_nil (w z : List Char) (h : rstripChars z = []) :
    rstripChars (w ++ z) = rstripChars w := by
  have hz : z.reverse.dropWhile isPySpace = [] := by
    have h2 := congrArg List.reverse h
    simp only [rstripChars, List.reverse_reverse, List.reverse_nil] at h2
    exact h2
  unfold rstripChars
  rw [List.reverse_append,
    dropWhile_append_all _ _ _ (List.dropWhile_eq_nil_iff.mp hz)]

theorem rstrip_ws_append_of_cons (w z : List Char) (x : Char) (xs : List Char)
    (h : rstripChars z = x :: xs) :
    rstripChars (w ++ z) = w ++ (x :: xs) := by
  unfold rstripChars at h ⊢
  cases hd : z.reverse.dropWhile isPySpace with
  | nil => rw [hd] at h; cases h
  | cons y ys =>
      rw [List.reverse_append, dropWhile_append_cons _ _ _ y ys hd]
      rw [hd] at h
      rw [← h]
      simp

theorem strip_ws_append (w z : List Char) (h : ∀ c ∈ w, isPySpace c = true) :
    stripChars (w ++ z) = stripChars z := by
  unfold stripChars
  cases hr : rstripChars z with
  | nil =>
      rw [rstrip_ws_append_of_nil w z hr, rstrip_all_ws w h]
  | cons x xs =>
      rw [rstrip_ws_append_of_cons w z x xs hr, lstrip_ws_append w _ h]

theorem strip_append_ws (z w : List Char) (h : ∀ c ∈ w, isPySpace c = true) :
    stripChars (z ++ w) = stripChars z := by
  unfold stripChars
  rw [rstrip_append_ws z w h]

theorem strip_no_ws (l : List Char) (h : ∀ c ∈ l, isPySpace c = false) :
    stripChars l = l := by
  unfold stripChars
  rw [rstrip_no_ws l h]
  exact dropWhile_eq_self_of_all _ _ h

/-! ### Line splitting and joining -/

theorem splitNL_ne_nil (t : List Char) : splitNL t ≠ [] := by
  cases t with
  | nil => simp [splitNL]
  | cons c rest =>
      simp only [splitNL]
      split
      · simp
      · split
        · simp
        · simp

theorem splitNL_cons_of_ne (c : Char) (rest : List Char) (hc : c ≠ '\n')
    (l : List Char) (ls : List (List Char)) (h : splitNL rest = l :: ls) :
    splitNL (c :: rest) = (c :: l) :: ls := by
  simp only [splitNL, if_neg hc, h]

theorem splitNL_no_nl (l : List Char) (h : '\n' ∉ l) : splitNL l = [l] := by
  induction l with
  | nil => rfl
  | cons c rest ih =>
      have hc : c ≠ '\n' := fun hx => h (hx ▸ List.mem_cons_self c rest)
      have hrest : '\n' ∉ rest := fun hx => h (List.mem_cons_of_mem c hx)
      rw [splitNL_cons_of_ne c rest hc rest [] (ih hrest)]

theorem splitNL_append_nl (l rest : List Char) (h : '\n' ∉ l) :
    splitNL (l ++ '\n' :: rest) = l :: splitNL rest := by
  induction l with
  | nil => simp [splitNL]
  | cons c t ih =>
      have hc : c ≠ '\n' := fun hx => h (hx ▸ List.mem_cons_self c t)
      have ht : '\n' ∉ t := fun hx => h (List.mem_cons_of_mem c hx)
      rw [List.cons_append, splitNL_cons_of_ne c _ hc t (splitNL rest) (ih ht)]

theorem joinWith_single (term l : List Char) : joinWith term [l] = l := by
  simp [joinWith]

theorem joinWith_cons₂ (term l l2 : List Char) (ls : List (List Char)) :
    joinWith term (l :: l2 :: ls) = l ++ term ++ joinWith term (l2 :: ls) := by
  simp [joinWith]

theorem splitNL_joinNL (lines : List (List Char)) (hne : lines ≠ [])
    (h : ∀ l ∈ lines, '\n' ∉ l) : splitNL (joinNL lines) = lines := by
  induction lines with
  | nil => exact absurd rfl hne
  | cons l ls ih =>
      cases ls with
      | nil =>
          rw [joinNL, joinWith_single]
          exact splitNL_no_nl l (h l (by simp))
      | cons l2 ls2 =>
          rw [joinNL, joinWith_cons₂]
          rw [show l ++ ['\n'] ++ joinWith ['\n'] (l2 :: ls2)
            = l ++ '\n' :: joinWith ['\n'] (l2 :: ls2) by simp]
          rw [splitNL_append_nl l _ (h l (by simp))]
          rw [show splitNL (joinWith ['\n'] (l2 :: ls2)) = l2 :: ls2 from
            ih (by simp) (fun q hq => h q (List.mem_cons_of_mem l hq))]

/-! ### Line-ending normalization -/

theorem replaceCRLF_cons₂ (c1 c2 : Char) (rest : List Char) :
    replaceCRLF (c1 :: c2 :: rest)
      = if c1 = '\r' ∧ c2 = '\n' then '\n' :: replaceCRLF rest
        else c1 :: replaceCRLF (c2 :: rest) := by
  simp [replaceCRLF]

theorem replaceCRLF_cons_ne (c : Char) (rest : List Char) (hc : c ≠ '\r') :
    replaceCRLF (c :: rest) = c :: replaceCRLF rest := by
  cases rest with
  | nil => simp [replaceCRLF]
  | cons c2 rest2 =>
      rw [replaceCRLF_cons₂, if_neg (fun hx => hc hx.1)]

theorem replaceCRLF_append_noCR (l rest : List Char) (h : '\r' ∉ l) :
    replaceCRLF (l ++ rest) = l ++ replaceCRLF rest := by
  induction l with
  | nil => rfl
  | cons c t ih =>
      have hc : c ≠ '\r' := fun hx => h (hx ▸ List.mem_cons_self c t)
      have ht : '\r' ∉ t := fun hx => h (List.mem_cons_of_mem c hx)
      rw [List.cons_append, replaceCRLF_cons_ne c _ hc, ih ht]
      simp

theorem replaceCRLF_noCR (l : List Char) (h : '\r' ∉ l) : replaceCRLF l = l := by
  have := replaceCRLF_append_noCR l [] h
  simpa [replaceCRLF] using this

theorem crToLF_noCR (l : List Char) (h : '\r' ∉ l) : crToLF l = l := by
  unfold crToLF
  induction l with
  | nil => rfl
  | cons c t ih =>
      have hc : c ≠ '\r' := fun hx => h (hx ▸ List.mem_cons_self c t)
      have ht : '\r' ∉ t := fun hx => h (List.mem_cons_of_mem c hx)
      rw [List.map_cons, if_neg hc, ih ht]

/-- The normalized-line-endings view of a text (main.py line 143). -/
def normEOL (t : List Char) : List Char :=
  crToLF (replaceCRLF t)

theorem replaceCRLF_lf_cons (rest : List Char) :
    replaceCRLF ('\n' :: rest) = '\n' :: replaceCRLF rest :=
  replaceCRLF_cons_ne '\n' rest (by decide)

theorem replaceCRLF_crlf_cons (rest : List Char) :
    replaceCRLF ('\r' :: '\n' :: rest) = '\n' :: replaceCRLF rest := by
  rw [replaceCRLF_cons₂, if_pos ⟨rfl, rfl⟩]

theorem replaceCRLF_cr_cons (rest : List Char) (h : rest.head? ≠ some '\n') :
    replaceCRLF ('\r' :: rest) = '\r' :: replaceCRLF rest := by
  cases rest with
  | nil => simp [replaceCRLF]
  | cons c2 rest2 =>
      have hc2 : c2 ≠ '\n' := fun hx => h (by rw [hx]; rfl)
      rw [replaceCRLF_cons₂, if_neg (fun hx => hc2 hx.2)]

theorem joinWith_cr_head (lines : List (List Char))
    (h : ∀ l ∈ lines, '\n' ∉ l) :
    (joinWith ['\r'] lines).head? ≠ some '\n' := by
  cases lines with
  | nil => simp [joinWith]
  | cons l0 ls0 =>
      cases l0 with
      | nil =>
          cases ls0 with
          | nil => simp [joinWith]
          | cons l1 ls1 => rw [joinWith_cons₂]; simp
      | cons c0 t0 =>
          have hc0 : c0 ≠ '\n' :=
            fun hx => h (c0 :: t0) (by simp) (hx ▸ List.mem_cons_self c0 t0)
          cases ls0 with
          | nil => rw [joinWith_single]; simpa using hc0
          | cons l1 ls1 =>
              rw [joinWith_cons₂, List.cons_append]
              simpa using hc0

/-- Re-assembling no-terminator lines with any of the three terminators
and normalizing the endings gives the LF-joined text. -/
theorem normEOL_joinWith (term : List Char)
    (hterm : term = ['\n'] ∨ term = ['\r'] ∨ term = ['\r', '\n']) :
    ∀ lines : List (List Char), (∀ l ∈ lines, '\n' ∉ l ∧ '\r' ∉ l) →
    normEOL (joinWith term lines) = joinNL lines := by
  intro lines
  induction lines with
  | nil => intro _; rfl
  | cons l ls ih =>
      intro h
      obtain ⟨hln, hlr⟩ := h l (by simp)
      have hrest : ∀ q ∈ ls, '\n' ∉ q ∧ '\r' ∉ q :=
        fun q hq => h q (List.mem_cons_of_mem l hq)
      cases ls with
      | nil =>
          rw [joinWith_single, joinNL, joinWith_single]
          unfold normEOL
          rw [replaceCRLF_noCR l hlr, crToLF_noCR l hlr]
      | cons l2 ls2 =>
          rw [joinWith_cons₂, joinNL, joinWith_cons₂]
          have hstep : replaceCRLF (term ++ joinWith term (l2 :: ls2))
              = '\n' :: replaceCRLF (joinWith term (l2 :: ls2)) ∨
              replaceCRLF (term ++ joinWith term (l2 :: ls2))
              = '\r' :: replaceCRLF (joinWith term (l2 :: ls2)) := by
            rcases hterm with ht | ht | ht
            · subst ht
              exact Or.inl (replaceCRLF_lf_cons _)
            · subst ht
              refine Or.inr ?_
              exact replaceCRLF_cr_cons _
                (joinWith_cr_head (l2 :: ls2) (fun q hq => (hrest q hq).1))
            · subst ht
              exact Or.inl (replaceCRLF_crlf_cons _)
          unfold normEOL
          rw [List.append_assoc, replaceCRLF_append_noCR l _ hlr]
          unfold crToLF
          rw [List.map_append]
          have hl : List.map (fun c => if c = '\r' then '\n' else c) l = l :=
            crToLF_noCR l hlr
          rw [hl]
          rcases hstep with hs | hs
          · rw [hs, List.map_cons, if_neg (by decide)]
            have := ih hrest
            unfold normEOL crToLF at this
            rw [this]
            simp [joinNL]
          · rw [hs, List.map_cons, if_pos rfl]
            have := ih hrest
            unfold normEOL crToLF at this
            rw [this]
            simp [joinNL]

/-! ### Assembling the normal form -/

theorem dropBOM_of_head (t : List Char) (h : t.head? ≠ some '\uFEFF') :
    dropBOM t = t := by
  cases t with
  | nil => rfl
  | cons c rest =>
      have hc : c ≠ '\uFEFF' := fun hx => h (by rw [hx]; rfl)
      simp [dropBOM, hc]

theorem joinWith_head_ne_bom (term : List Char)
    (hterm : term = ['\n'] ∨ term = ['\r'] ∨ term = ['\r', '\n'])
    (lines : List (List Char))
    (hbom : ∀ l0, lines.head? = some l0 → l0.head? ≠ some '\uFEFF') :
    (joinWith term lines).head? ≠ some '\uFEFF' := by
  cases lines with
  | nil => simp [joinWith]
  | cons l0 ls0 =>
      cases l0 with
      | nil =>
          cases ls0 with
          | nil => rw [joinWith_single]; simp
          | cons l1 ls1 =>
              rw [joinWith_cons₂]
              simp only [List.nil_append]
              rcases hterm with ht | ht | ht <;> subst ht <;> simp
      | cons c0 t0 =>
          have hc0 : c0 ≠ '\uFEFF' := by
            have := hbom (c0 :: t0) rfl
            intro hx
            exact this (by rw [hx]; rfl)
          cases ls0 with
          | nil => rw [joinWith_single]; simpa using hc0
          | cons l1 ls1 =>
              rw [joinWith_cons₂, List.cons_append]
              simpa using hc0

theorem normalize_def (t : List Char) :
    normalize_csv_bytes t
      = stripChars (joinNL ((splitNL (normEOL (dropBOM t))).map rstripChars))
        ++ ['\n'] := rfl

/-- The normal form of a text assembled from no-terminator lines with any
of the three terminators: right-strip each line, LF-join, strip, add one
trailing LF. -/
theorem normalize_joinWith (term : List Char)
    (hterm : term = ['\n'] ∨ term = ['\r'] ∨ term = ['\r', '\n'])
    (lines : List (List Char)) (hne : lines ≠ [])
    (hnoterm : ∀ l ∈ lines, '\n' ∉ l ∧ '\r' ∉ l)
    (hbom : ∀ l0, lines.head? = some l0 → l0.head? ≠ some '\uFEFF') :
    normalize_csv_bytes (joinWith term lines)
      = stripChars (joinNL (lines.map rstripChars)) ++ ['\n'] := by
  rw [normalize_def,
    dropBOM_of_head _ (joinWith_head_ne_bom term hterm lines hbom),
    normEOL_joinWith term hterm lines hnoterm,
    splitNL_joinNL lines hne (fun l hl => (hnoterm l hl).1)]

theorem joinNL_all_ws (es : List (List Char)) (h : ∀ x ∈ es, x = []) :
    ∀ c ∈ joinNL es, isPySpace c = true := by
  induction es with
  | nil =>
      intro c hc
      simp [joinNL, joinWith] at hc
  | cons e es' ih =>
      have he : e = [] := h e (by simp)
      subst he
      cases es' with
      | nil =>
          intro c hc
          rw [joinNL, joinWith_single] at hc
          cases hc
      | cons e2 es2 =>
          intro c hc
          rw [joinNL, joinWith_cons₂, List.nil_append] at hc
          rcases List.mem_append.mp hc with hc1 | hc1
          · rcases List.mem_singleton.mp hc1 with rfl
            decide
          · exact ih (fun x hx => h x (List.mem_cons_of_mem _ hx)) c hc1

theorem joinNL_empties_append (es : List (List Char)) :
    ∀ mid : List (List Char), (∀ x ∈ es, x = []) → mid ≠ [] →
    ∃ w, (∀ c ∈ w, isPySpace c = true) ∧ joinNL (es ++ mid) = w ++ joinNL mid := by
  induction es with
  | nil => exact fun mid _ _ => ⟨[], by simp, by simp⟩
  | cons e es' ih =>
      intro mid hes hmid
      obtain ⟨w', hw', hjw⟩ := ih mid (fun x hx => hes x (List.mem_cons_of_mem e hx)) hmid
      have he : e = [] := hes e (by simp)
      subst he
      have hne2 : es' ++ mid ≠ [] := by
        intro hx
        exact hmid (List.append_eq_nil.mp hx).2
      obtain ⟨r0, rs, hr⟩ := List.exists_cons_of_ne_nil hne2
      refine ⟨'\n' :: w', fun c hc => ?_, ?_⟩
      · rcases List.mem_cons.mp hc with rfl | hc2
        · decide
        · exact hw' c hc2
      · have hju : joinWith ['\n'] (r0 :: rs) = w' ++ joinNL mid := by
          rw [← hr]
          exact hjw
        rw [List.cons_append, joinNL, hr, joinWith_cons₂, List.nil_append, hju]
        simp

theorem joinNL_append_empties :
    ∀ (mid es : List (List Char)), (∀ x ∈ es, x = []) → mid ≠ [] →
    ∃ w, (∀ c ∈ w, isPySpace c = true) ∧ joinNL (mid ++ es) = joinNL mid ++ w := by
  intro mid
  induction mid with
  | nil => exact fun es _ hmid => absurd rfl hmid
  | cons l ls ih =>
      intro es hes _
      cases ls with
      | nil =>
          cases es with
          | nil => exact ⟨[], by simp, by simp⟩
          | cons e0 es0 =>
              refine ⟨'\n' :: joinNL (e0 :: es0), fun c hc => ?_, ?_⟩
              · rcases List.mem_cons.mp hc with rfl | hc2
                · decide
                · exact joinNL_all_ws (e0 :: es0) hes c hc2
              · rw [List.singleton_append, joinNL, joinWith_cons₂, joinNL,
                  joinWith_single]
                simp [joinNL]
      | cons l2 ls2 =>
          obtain ⟨w, hw, hjw⟩ := ih es hes (by simp)
          refine ⟨w, hw, ?_⟩
          rw [List.cons_append, List.cons_append, joinNL, joinWith_cons₂]
          rw [show joinWith ['\n'] (l2 :: (ls2 ++ es))
              = joinNL ((l2 :: ls2) ++ es) from by rw [List.cons_append]; rfl]
          rw [hjw]
          rw [show joinNL (l :: l2 :: ls2)
              = l ++ ['\n'] ++ joinWith ['\n'] (l2 :: ls2) from by
            rw [joinNL, joinWith_cons₂]]
          simp [joinNL]

theorem strip_joinNL_empties (es mid es' : List (List Char))
    (hes : ∀ x ∈ es, x = []) (hes' : ∀ x ∈ es', x = []) (hmid : mid ≠ []) :
    stripChars (joinNL (es ++ mid ++ es')) = stripChars (joinNL mid) := by
  have hmid2 : mid ++ es' ≠ [] := by
    intro hx
    exact hmid (List.append_eq_nil.mp hx).1
  obtain ⟨w1, hw1, hj1⟩ := joinNL_empties_append es (mid ++ es') hes hmid2
  obtain ⟨w2, hw2, hj2⟩ := joinNL_append_empties mid es' hes' hmid
  rw [List.append_assoc, hj1, strip_ws_append w1 _ hw1, hj2,
    strip_append_ws _ w2 hw2]

/-! ### Fingerprint invariance helpers -/

theorem fingerprint_congr {x y : List Char}
    (h : normalize_csv_bytes x = normalize_csv_bytes y) :
    fingerprint x = fingerprint y := by
  unfold fingerprint
  rw [h]

/-- Lines of a well-formed decoded text: non-empty, free of embedded
terminators, and not starting with a byte-order mark. -/
def GoodLines (lines : List (List Char)) : Prop :=
  lines ≠ [] ∧ (∀ l ∈ lines, '\n' ∉ l ∧ '\r' ∉ l) ∧
    ∀ l0, lines.head? = some l0 → l0.head? ≠ some '\uFEFF'

/-- The second line is the first with trailing non-terminator whitespace
appended. -/
def WsExtends (l l' : List Char) : Prop :=
  ∃ w, l' = l ++ w ∧ ∀ c ∈ w, isPySpace c = true ∧ c ≠ '\n' ∧ c ≠ '\r'

theorem wsExtends_rstrip {l l' : List Char} (h : WsExtends l l') :
    rstripChars l' = rstripChars l := by
  obtain ⟨w, rfl, hw⟩ := h
  exact rstrip_append_ws l w (fun c hc => (hw c hc).1)

theorem forall₂_ws_map_rstrip {lines lines' : List (List Char)}
    (h : List.Forall₂ WsExtends lines lines') :
    lines'.map rstripChars = lines.map rstripChars := by
  induction h with
  | nil => rfl
  | cons h1 _ ih => simp [wsExtends_rstrip h1, ih]

theorem forall₂_ws_good {lines lines' : List (List Char)}
    (h : List.Forall₂ WsExtends lines lines') (hg : GoodLines lines) :
    GoodLines lines' := by
  obtain ⟨hne, hnoterm, hbom⟩ := hg
  refine ⟨?_, ?_, ?_⟩
  · intro hx
    subst hx
    cases h
    exact hne rfl
  · clear hbom hne
    induction h with
    | nil => intro l' hl'; cases hl'
    | cons h1 _ ih =>
        intro l' hl'
        rcases List.mem_cons.mp hl' with rfl | hl2
        · obtain ⟨w, rfl, hw⟩ := h1
          have ha := hnoterm _ (List.mem_cons_self _ _)
          constructor
          · intro hx
            rcases List.mem_append.mp hx with hx1 | hx1
            · exact ha.1 hx1
            · exact (hw _ hx1).2.1 rfl
          · intro hx
            rcases List.mem_append.mp hx with hx1 | hx1
            · exact ha.2 hx1
            · exact (hw _ hx1).2.2 rfl
        · exact ih (fun q hq => hnoterm q (List.mem_cons_of_mem _ hq)) l' hl2
  · cases h with
    | nil => intro l0 h0; cases h0
    | cons h1 h2 =>
        intro l0 h0
        cases h0
        obtain ⟨w, rfl, hw⟩ := h1
        next a as bs =>
          cases a with
          | nil =>
              simp only [List.nil_append]
              cases w with
              | nil => simp
              | cons c0 w0 =>
                  have hc0 := (hw c0 (by simp)).1
                  intro hx
                  have : c0 = '\uFEFF' := by
                    simpa using hx
                  rw [this] at hc0
                  exact absurd hc0 (by decide)
          | cons c0 a0 =>
              have := hbom (c0 :: a0) rfl
              simpa using this

/-- Re-terminating the lines of a well-formed text with any of the three
terminators does not change the fingerprint. -/
theorem fingerprint_reterm (term : List Char)
    (hterm : term = ['\n'] ∨ term = ['\r'] ∨ term = ['\r', '\n'])
    (lines : List (List Char)) (hg : GoodLines lines) :
    fingerprint (joinWith term lines) = fingerprint (joinNL lines) := by
  obtain ⟨hne, hnoterm, hbom⟩ := hg
  apply fingerprint_congr
  rw [normalize_joinWith term hterm lines hne hnoterm hbom,
    show normalize_csv_bytes (joinNL lines)
      = normalize_csv_bytes (joinWith ['\n'] lines) from rfl,
    normalize_joinWith ['\n'] (Or.inl rfl) lines hne hnoterm hbom]

/-- Appending trailing whitespace to any of the lines does not change the
fingerprint. -/
theorem fingerprint_trailing_ws (lines lines' : List (List Char))
    (hg : GoodLines lines) (h : List.Forall₂ WsExtends lines lines') :
    fingerprint (joinNL lines') = fingerprint (joinNL lines) := by
  obtain ⟨hne', hnoterm', hbom'⟩ := forall₂_ws_good h hg
  obtain ⟨hne, hnoterm, hbom⟩ := hg
  apply fingerprint_congr
  rw [show normalize_csv_bytes (joinNL lines')
      = normalize_csv_bytes (joinWith ['\n'] lines') from rfl,
    normalize_joinWith ['\n'] (Or.inl rfl) lines' hne' hnoterm' hbom',
    show normalize_csv_bytes (joinNL lines)
      = normalize_csv_bytes (joinWith ['\n'] lines) from rfl,
    normalize_joinWith ['\n'] (Or.inl rfl) lines hne hnoterm hbom,
    forall₂_ws_map_rstrip h]

/-- Adding leading/trailing whitespace-only blank lines does not change the
fingerprint. -/
theorem fingerprint_blank_lines (lines blanks blanks' : List (List Char))
    (hg : GoodLines lines)
    (hws : ∀ l ∈ blanks ++ blanks', ∀ c ∈ l,
      isPySpace c = true ∧ c ≠ '\n' ∧ c ≠ '\r') :
    fingerprint (joinNL (blanks ++ lines ++ blanks')) = fingerprint (joinNL lines) := by
  obtain ⟨hne, hnoterm, hbom⟩ := hg
  have hwsb : ∀ l ∈ blanks, ∀ c ∈ l, isPySpace c = true ∧ c ≠ '\n' ∧ c ≠ '\r' :=
    fun l hl => hws l (List.mem_append_left _ hl)
  have hwsb' : ∀ l ∈ blanks', ∀ c ∈ l, isPySpace c = true ∧ c ≠ '\n' ∧ c ≠ '\r' :=
    fun l hl => hws l (List.mem_append_right _ hl)
  have hne2 : blanks ++ lines ++ blanks' ≠ [] := by
    intro hx
    exact hne (List.append_eq_nil.mp (List.append_eq_nil.mp hx).1).2
  have hnoterm2 : ∀ l ∈ blanks ++ lines ++ blanks', '\n' ∉ l ∧ '\r' ∉ l := by
    intro l hl
    rcases List.mem_append.mp hl with hl1 | hl1
    · rcases List.mem_append.mp hl1 with hl2 | hl2
      · exact ⟨fun hx => (hwsb l hl2 _ hx).2.1 rfl,
          fun hx => (hwsb l hl2 _ hx).2.2 rfl⟩
      · exact hnoterm l hl2
    · exact ⟨fun hx => (hwsb' l hl1 _ hx).2.1 rfl,
        fun hx => (hwsb' l hl1 _ hx).2.2 rfl⟩
  have hbom2 : ∀ l0, (blanks ++ lines ++ blanks').head? = some l0 →
      l0.head? ≠ some '\uFEFF' := by
    cases blanks with
    | nil =>
        simp only [List.nil_append]
        intro l0 h0
        cases lines with
        | nil => exact absurd rfl hne
        | cons a as =>
            rw [List.cons_append] at h0
            cases h0
            exact hbom _ rfl
    | cons b0 bs =>
        intro l0 h0
        rw [List.cons_append, List.cons_append] at h0
        have hl0 : l0 = b0 := by
          simpa using h0.symm
        subst hl0
        cases l0 with
        | nil => simp
        | cons c0 b0t =>
            have hc0 := (hwsb (c0 :: b0t) (by simp) c0 (by simp)).1
            intro hx
            have hceq : c0 = '\uFEFF' := by simpa using hx
            rw [hceq] at hc0
            exact absurd hc0 (by decide)
  apply fingerprint_congr
  rw [show normalize_csv_bytes (joinNL (blanks ++ lines ++ blanks'))
      = normalize_csv_bytes (joinWith ['\n'] (blanks ++ lines ++ blanks')) from rfl,
    normalize_joinWith ['\n'] (Or.inl rfl) _ hne2 hnoterm2 hbom2,
    show normalize_csv_bytes (joinNL lines)
      = normalize_csv_bytes (joinWith ['\n'] lines) from rfl,
    normalize_joinWith ['\n'] (Or.inl rfl) lines hne hnoterm hbom]
  have hmaps : (blanks ++ lines ++ blanks').map rstripChars
      = blanks.map rstripChars ++ lines.map rstripChars
        ++ blanks'.map rstripChars := by
    simp
  rw [hmaps]
  have hstrip := strip_joinNL_empties (blanks.map rstripChars)
    (lines.map rstripChars) (blanks'.map rstripChars)
    (by
      intro x hx
      obtain ⟨b, hb, rfl⟩ := List.mem_map.mp hx
      exact rstrip_all_ws b (fun c hc => (hwsb b hb c hc).1))
    (by
      intro x hx
      obtain ⟨b, hb, rfl⟩ := List.mem_map.mp hx
      exact rstrip_all_ws b (fun c hc => (hwsb' b hb c hc).1))
    (fun hx => hne (List.map_eq_nil_iff.mp hx))
  rw [hstrip]

theorem joinNL_append_nil_line :
    ∀ ls : List (List Char), ls ≠ [] → joinNL (ls ++ [[]]) = joinNL ls ++ ['\n'] := by
  intro ls
  induction ls with
  | nil => exact fun hx => absurd rfl hx
  | cons l ls' ih =>
      intro _
      cases ls' with
      | nil =>
          rw [List.singleton_append, joinNL, joinWith_cons₂, joinNL,
            joinWith_single, joinWith_single]
          simp
      | cons l2 ls2 =>
          rw [List.cons_append, List.cons_append, joinNL, joinWith_cons₂]
          rw [show joinWith ['\n'] (l2 :: (ls2 ++ [[]]))
              = joinNL ((l2 :: ls2) ++ [[]]) from by rw [List.cons_append]; rfl]
          rw [ih (by simp)]
          rw [show joinNL (l :: l2 :: ls2)
              = l ++ ['\n'] ++ joinWith ['\n'] (l2 :: ls2) from by
            rw [joinNL, joinWith_cons₂]]
          simp [joinNL]

/-- Adding a final line terminator does not change the fingerprint. -/
theorem fingerprint_final_nl (lines : List (List Char)) (hg : GoodLines lines) :
    fingerprint (joinNL lines ++ ['\n']) = fingerprint (joinNL lines) := by
  rw [← joinNL_append_nil_line lines hg.1]
  have h := fingerprint_blank_lines lines [] [[]] hg
    (by intro l hl c hc; simp at hl; subst hl; cases hc)
  simpa using h

/-- Prefixing a BOM to a text that does not already begin with one does not
change the fingerprint. -/
theorem fingerprint_bom (t : List Char) (h : t.head? ≠ some '\uFEFF') :
    fingerprint ('\uFEFF' :: t) = fingerprint t := by
  apply fingerprint_congr
  rw [normalize_def, normalize_def,
    show dropBOM ('\uFEFF' :: t) = t from by simp [dropBOM],
    dropBOM_of_head t h]

/-! ### The digest has a finite range: SHA-256 is not injective -/

theorem beBytes_length (w : Nat) : ∀ v : Nat, (beBytes w v).length = w := by
  induction w with
  | zero => intro v; rfl
  | succ w ih =>
      intro v
      simp [beBytes, ih]

theorem beBytes_lt (w : Nat) : ∀ (v : Nat), ∀ b ∈ beBytes w v, b < 256 := by
  induction w with
  | zero => intro v b hb; cases hb
  | succ w ih =>
      intro v b hb
      simp only [beBytes, List.mem_append, List.mem_singleton] at hb
      rcases hb with hb | rfl
      · exact ih _ b hb
      · exact Nat.mod_lt _ (by decide)

theorem sha256_bytes_length (m : List Nat) : (sha256_bytes m).length = 32 := by
  unfold sha256_bytes
  simp [beBytes_length]

theorem sha256_bytes_lt (m : List Nat) : ∀ b ∈ sha256_bytes m, b < 256 := by
  intro b hb
  unfold sha256_bytes at hb
  simp only [List.mem_append] at hb
  rcases hb with ((((((hb | hb) | hb) | hb) | hb) | hb) | hb) | hb <;>
    exact beBytes_lt _ _ b hb

/-- Base-256 value of a byte list. -/
def val256 (l : List Nat) : Nat :=
  l.foldl (fun acc b => acc * 256 + b) 0

theorem val256_foldl_eq :
    ∀ (l : List Nat) (acc : Nat),
    l.foldl (fun acc b => acc * 256 + b) acc = acc * 256 ^ l.length + val256 l := by
  intro l
  induction l with
  | nil => intro acc; simp [val256]
  | cons b t ih =>
      intro acc
      have h1 : (b :: t).foldl (fun acc b => acc * 256 + b) acc
          = t.foldl (fun acc b => acc * 256 + b) (acc * 256 + b) := rfl
      have h2 : val256 (b :: t) = t.foldl (fun acc b => acc * 256 + b) b := by
        simp [val256]
      rw [h1, ih (acc * 256 + b), h2, ih b]
      simp [List.length_cons, Nat.pow_succ]
      ring

theorem val256_lt : ∀ l : List Nat, (∀ b ∈ l, b < 256) → val256 l < 256 ^ l.length := by
  intro l
  induction l with
  | nil => intro _; simp [val256]
  | cons b t ih =>
      intro h
      have hb : b < 256 := h b (by simp)
      have ht := ih (fun q hq => h q (List.mem_cons_of_mem b hq))
      have hv : val256 (b :: t) = b * 256 ^ t.length + val256 t := by
        have h2 : val256 (b :: t) = t.foldl (fun acc b => acc * 256 + b) b := by
          simp [val256]
        rw [h2, val256_foldl_eq]
      rw [hv, List.length_cons, Nat.pow_succ]
      calc b * 256 ^ t.length + val256 t
      _ < b * 256 ^ t.length + 256 ^ t.length := by omega
      _ = (b + 1) * 256 ^ t.length := by ring
      _ ≤ 256 * 256 ^ t.length := by
        exact Nat.mul_le_mul_right _ (by omega)
      _ = 256 ^ t.length * 256 := by ring

theorem val256_inj :
    ∀ l1 l2 : List Nat, l1.length = l2.length → (∀ b ∈ l1, b < 256) →
    (∀ b ∈ l2, b < 256) → val256 l1 = val256 l2 → l1 = l2 := by
  intro l1
  induction l1 with
  | nil =>
      intro l2 hlen _ _ _
      cases l2 with
      | nil => rfl
      | cons b t => cases hlen
  | cons b1 t1 ih =>
      intro l2 hlen h1 h2 hval
      cases l2 with
      | nil => cases hlen
      | cons b2 t2 =>
          have hlen' : t1.length = t2.length := by simpa using hlen
          have e1 : val256 (b1 :: t1) = b1 * 256 ^ t1.length + val256 t1 := by
            have h3 : val256 (b1 :: t1) = t1.foldl (fun acc b => acc * 256 + b) b1 := by
              simp [val256]
            rw [h3, val256_foldl_eq]
          have e2 : val256 (b2 :: t2) = b2 * 256 ^ t1.length + val256 t2 := by
            have h3 : val256 (b2 :: t2) = t2.foldl (fun acc b => acc * 256 + b) b2 := by
              simp [val256]
            rw [h3, val256_foldl_eq, hlen']
          have hv1 : val256 t1 < 256 ^ t1.length :=
            val256_lt t1 (fun q hq => h1 q (List.mem_cons_of_mem b1 hq))
          have hv2 : val256 t2 < 256 ^ t1.length := by
            rw [hlen']
            exact val256_lt t2 (fun q hq => h2 q (List.mem_cons_of_mem b2 hq))
          rw [e1, e2] at hval
          have hb : b1 = b2 := by
            rcases Nat.lt_trichotomy b1 b2 with hlt | heq | hgt
            · exfalso
              have : b1 * 256 ^ t1.length + val256 t1 < b2 * 256 ^ t1.length := by
                calc b1 * 256 ^ t1.length + val256 t1
                _ < b1 * 256 ^ t1.length + 256 ^ t1.length := by omega
                _ = (b1 + 1) * 256 ^ t1.length := by ring
                _ ≤ b2 * 256 ^ t1.length :=
                    Nat.mul_le_mul_right _ (by omega)
              omega
            · exact heq
            · exfalso
              have : b2 * 256 ^ t1.length + val256 t2 < b1 * 256 ^ t1.length := by
                calc b2 * 256 ^ t1.length + val256 t2
                _ < b2 * 256 ^ t1.length + 256 ^ t1.length := by omega
                _ = (b2 + 1) * 256 ^ t1.length := by ring
                _ ≤ b1 * 256 ^ t1.length :=
                    Nat.mul_le_mul_right _ (by omega)
              omega
          subst hb
          have hteq : val256 t1 = val256 t2 := by omega
          rw [ih t2 hlen' (fun q hq => h1 q (List.mem_cons_of_mem b1 hq))
            (fun q hq => h2 q (List.mem_cons_of_mem b1 hq)) hteq]

/-- A run of k+1 letters normalizes to itself plus a trailing LF. -/
theorem normalize_replicate_a (k : Nat) :
    normalize_csv_bytes (List.replicate (k + 1) 'a')
      = List.replicate (k + 1) 'a' ++ ['\n'] := by
  have hmem : ∀ c ∈ List.replicate (k + 1) 'a', c = 'a' :=
    fun c hc => List.eq_of_mem_replicate hc
  have hnonl : '\n' ∉ List.replicate (k + 1) 'a' := by
    intro hx
    cases hmem '\n' hx
  have hnocr : '\r' ∉ List.replicate (k + 1) 'a' := by
    intro hx
    cases hmem '\r' hx
  have hnows : ∀ c ∈ List.replicate (k + 1) 'a', isPySpace c = false := by
    intro c hc
    rw [hmem c hc]
    decide
  rw [normalize_def]
  rw [dropBOM_of_head _ (by
    rw [List.replicate_succ]
    intro hx
    simp at hx)]
  rw [show normEOL (List.replicate (k + 1) 'a') = List.replicate (k + 1) 'a' from by
    unfold normEOL
    rw [replaceCRLF_noCR _ hnocr, crToLF_noCR _ hnocr]]
  rw [splitNL_no_nl _ hnonl]
  rw [List.map_singleton, rstrip_no_ws _ hnows, joinNL, joinWith_single,
    strip_no_ws _ hnows]

/-- SHA-256 has a finite range, so some two texts with different
normalized forms share a fingerprint. -/
theorem fingerprint_not_injective :
    ∃ x y : List Char, normalize_csv_bytes x ≠ normalize_csv_bytes y ∧
      fingerprint x = fingerprint y := by
  obtain ⟨n, m, hnm, hfeq⟩ := Fintype.exists_ne_map_eq_of_card_lt
    (fun k : Fin (256 ^ 32 + 1) =>
      (⟨val256 (sha256_bytes (utf8Encode (normalize_csv_bytes
          (List.replicate (k.1 + 1) 'a')))), by
        have h := val256_lt _ (sha256_bytes_lt (utf8Encode (normalize_csv_bytes
          (List.replicate (k.1 + 1) 'a'))))
        rwa [sha256_bytes_length] at h⟩ : Fin (256 ^ 32)))
    (by rw [Fintype.card_fin, Fintype.card_fin]; exact Nat.lt_succ_self _)
  refine ⟨List.replicate (n.1 + 1) 'a', List.replicate (m.1 + 1) 'a', ?_, ?_⟩
  · intro hx
    rw [normalize_replicate_a, normalize_replicate_a] at hx
    have hlen := congrArg List.length hx
    simp only [List.length_append, List.length_replicate] at hlen
    exact hnm (Fin.ext (by omega))
  · have hval : val256 (sha256_bytes (utf8Encode (normalize_csv_bytes
        (List.replicate (n.1 + 1) 'a'))))
        = val256 (sha256_bytes (utf8Encode (normalize_csv_bytes
          (List.replicate (m.1 + 1) 'a')))) := by
      have := congrArg Fin.val hfeq
      simpa using this
    have hdig := val256_inj _ _
      (by rw [sha256_bytes_length, sha256_bytes_length])
      (sha256_bytes_lt _) (sha256_bytes_lt _) hval
    unfold fingerprint sha256_hex
    rw [hdig]

set_option maxRecDepth 10000

/-- Counterexample to claim C9: the fingerprint is NOT invariant under
adding a leading byte-order mark to every byte string — if the text already
begins with U+FEFF, only the first mark is dropped (utf-8-sig) and the
second survives normalization, changing the digest.  Moreover distinct
normalized forms do not always yield distinct fingerprints: SHA-256 maps
infinitely many distinct normalized texts into 2^256 digests. -/
theorem fingerprint_normalization_cex :
    fingerprint ['\uFEFF', '\uFEFF', 'a'] ≠ fingerprint ['\uFEFF', 'a'] ∧
    ∃ x y : List Char, normalize_csv_bytes x ≠ normalize_csv_bytes y ∧
      fingerprint x = fingerprint y :=
  ⟨by decide, fingerprint_not_injective⟩

/-- Claim C9 as amended: for a text given as terminator-free lines not
beginning with a byte-order mark, the fingerprint is unchanged by:
re-terminating the lines with any of LF, CR, CRLF; appending trailing
non-terminator whitespace to any line; adding leading or trailing
whitespace-only blank lines; adding a final line terminator; and prefixing
a BOM to a text that does not already start with one.  The fingerprint
depends only on the normalized bytes. -/
theorem fingerprint_normalization_amended :
    (∀ (term : List Char) (lines : List (List Char)), GoodLines lines →
      (term = ['\n'] ∨ term = ['\r'] ∨ term = ['\r', '\n']) →
      fingerprint (joinWith term lines) = fingerprint (joinNL lines)) ∧
    (∀ lines lines' : List (List Char), GoodLines lines →
      List.Forall₂ WsExtends lines lines' →
      fingerprint (joinNL lines') = fingerprint (joinNL lines)) ∧
    (∀ lines blanks blanks' : List (List Char), GoodLines lines →
      (∀ l ∈ blanks ++ blanks', ∀ c ∈ l,
        isPySpace c = true ∧ c ≠ '\n' ∧ c ≠ '\r') →
      fingerprint (joinNL (blanks ++ lines ++ blanks')) = fingerprint (joinNL lines)) ∧
    (∀ lines : List (List Char), GoodLines lines →
      fingerprint (joinNL lines ++ ['\n']) = fingerprint (joinNL lines)) ∧
    (∀ t : List Char, t.head? ≠ some '\uFEFF' →
      fingerprint ('\uFEFF' :: t) = fingerprint t) ∧
    (∀ x y : List Char, normalize_csv_bytes x = normalize_csv_bytes y →
      fingerprint x = fingerprint y) :=
  ⟨fun term lines hg ht => fingerprint_reterm term ht lines hg,
   fun lines lines' hg h => fingerprint_trailing_ws lines lines' hg h,
   fun lines blanks blanks' hg hws => fingerprint_blank_lines lines blanks blanks' hg hws,
   fun lines hg => fingerprint_final_nl lines hg,
   fun t h => fingerprint_bom t h,
   fun _ _ h => fingerprint_congr h⟩

/-- Witness for `fingerprint_normalization_amended`: CRLF-terminating the
two-line text a/b leaves the fingerprint of the LF form, and a BOM prefix
on a BOM-free text is dropped. -/
theorem fingerprint_normalization_amended_witness :
    fingerprint (joinWith ['\r', '\n'] [['a'], ['b']])
      = fingerprint (joinNL [['a'], ['b']]) ∧
    fingerprint ('\uFEFF' :: ['a']) = fingerprint ['a'] :=
  ⟨fingerprint_normalization_amended.1 ['\r', '\n'] [['a'], ['b']]
    ⟨by decide, by decide, by
      intro l0 h0
      cases h0
      decide⟩ (Or.inr (Or.inr rfl)),
   fingerprint_normalization_amended.2.2.2.2.1 ['a'] (by decide)⟩

end NpcUpload
